import Mathlib

/-!
Verification of `src/clone_catalog.py` (catalog-cloning utility for a 1C
configuration export).  The program is modelled as pure functions on
`List Char` (Python `str` values), with the regex operations rendered as
explicit left-to-right scanners that mirror the `re` module's leftmost,
non-overlapping matching discipline.
-/

set_option maxRecDepth 65536

namespace CloneCatalog

/-- Python `[0-9a-f]` with `re.IGNORECASE` (line 54 of the source). -/
def isHexDigit (c : Char) : Bool :=
  ('0' ≤ c && c ≤ '9') || ('a' ≤ c && c ≤ 'f') || ('A' ≤ c && c ≤ 'F')

/-- Scanner core for Python `str.replace` (line 51): leftmost,
non-overlapping occurrences of `pat` are replaced by `rep`; replacements are
not rescanned.  The `Nat` argument counts characters still to be skipped
from a previous match, so the recursion is structural on the string. -/
def pyReplaceGo (pat rep : List Char) : Nat → List Char → List Char
  | _, [] => []
  | k + 1, _ :: t => pyReplaceGo pat rep k t
  | 0, c :: t =>
    if pat.isPrefixOf (c :: t) then
      rep ++ pyReplaceGo pat rep (pat.length - 1) t
    else
      c :: pyReplaceGo pat rep 0 t

/-- Python `s.replace(pat, rep)` for a non-empty `pat`. -/
def pyReplace (pat rep s : List Char) : List Char :=
  pyReplaceGo pat rep 0 s

theorem pyReplaceGo_skip (pat rep : List Char) :
    ∀ (k : Nat) (s : List Char), pyReplaceGo pat rep k s = pyReplaceGo pat rep 0 (s.drop k) := by
  intro k
  induction k with
  | zero => intro s; simp
  | succ k ih =>
    intro s
    cases s with
    | nil => simp [pyReplaceGo]
    | cons c t => simpa [pyReplaceGo] using ih t

theorem pyReplace_nil (pat rep : List Char) : pyReplace pat rep [] = [] := rfl

theorem pyReplace_cons_pos (pat rep : List Char) (c : Char) (t : List Char)
    (hne : pat ≠ []) (h : pat.isPrefixOf (c :: t)) :
    pyReplace pat rep (c :: t) = rep ++ pyReplace pat rep ((c :: t).drop pat.length) := by
  cases pat with
  | nil => exact absurd rfl hne
  | cons p ps =>
    simp only [pyReplace, pyReplaceGo, if_pos h]
    rw [pyReplaceGo_skip]
    rfl

theorem pyReplace_cons_neg (pat rep : List Char) (c : Char) (t : List Char)
    (h : ¬ pat.isPrefixOf (c :: t)) :
    pyReplace pat rep (c :: t) = c :: pyReplace pat rep t := by
  simp only [pyReplace, pyReplaceGo, if_neg h]

example : pyReplace "ab".data "xyz".data "zababa".data = "zxyzxyza".data := by decide

/-! ## The canonical-identifier pattern

`re.compile(r'[0-9a-f]{8}-[0-9a-f]{4}-[0-9a-f]{4}-[0-9a-f]{4}-[0-9a-f]{12}', re.IGNORECASE)`
(line 54).  The pattern is a fixed 36-character shape, so a match attempt at
a position either consumes exactly 36 characters or fails. -/

/-- Consume exactly `n` hex digits, returning the rest of the string. -/
def hexRun : Nat → List Char → Option (List Char)
  | 0, s => some s
  | _ + 1, [] => none
  | n + 1, c :: t => if isHexDigit c then hexRun n t else none

/-- Consume a single hyphen. -/
def dashThen : List Char → Option (List Char)
  | c :: t => if c = '-' then some t else none
  | [] => none

/-- Attempt the identifier pattern at the start of `s`; on success return the
text after the 36 matched characters. -/
def matchUUID (s : List Char) : Option (List Char) :=
  (hexRun 8 s).bind fun s1 =>
  (dashThen s1).bind fun s2 =>
  (hexRun 4 s2).bind fun s3 =>
  (dashThen s3).bind fun s4 =>
  (hexRun 4 s4).bind fun s5 =>
  (dashThen s5).bind fun s6 =>
  (hexRun 4 s6).bind fun s7 =>
  (dashThen s7).bind fun s8 =>
  hexRun 12 s8

/-- A string that is exactly one canonical identifier. -/
def isUUID (u : List Char) : Prop := matchUUID u = some []

instance (u : List Char) : Decidable (isUUID u) := by
  unfold isUUID; infer_instance

/-- Scanner core of `uuid_pattern.sub(lambda m: get_new_guid(), content)`
(line 55): each leftmost, non-overlapping match is replaced by the next value
of the fresh-identifier stream `g`; the skip counter keeps the recursion
structural. -/
def subUUIDGo (g : Nat → List Char) : Nat → Nat → List Char → List Char
  | _, _, [] => []
  | k + 1, n, _ :: t => subUUIDGo g k n t
  | 0, n, c :: t =>
    match matchUUID (c :: t) with
    | some _ => g n ++ subUUIDGo g 35 (n + 1) t
    | none => c :: subUUIDGo g 0 n t

/-- `uuid_pattern.sub` with fresh identifiers `g n, g (n+1), ...`. -/
def subUUID (g : Nat → List Char) (n : Nat) (s : List Char) : List Char :=
  subUUIDGo g 0 n s

/-- Scanner core of `uuid_pattern.findall`-style match collection: the list
of matched substrings, leftmost and non-overlapping. -/
def uuidMatchesGo : Nat → List Char → List (List Char)
  | _, [] => []
  | k + 1, _ :: t => uuidMatchesGo k t
  | 0, c :: t =>
    match matchUUID (c :: t) with
    | some _ => (c :: t).take 36 :: uuidMatchesGo 35 t
    | none => uuidMatchesGo 0 t

/-- All canonical-identifier matches of `s` (leftmost, non-overlapping). -/
def uuidMatches (s : List Char) : List (List Char) :=
  uuidMatchesGo 0 s

/-- Number of canonical-identifier-shaped substrings of `s`, in the
leftmost non-overlapping sense of the scanner. -/
def uuidCount (s : List Char) : Nat :=
  (uuidMatches s).length

/-! ## Configuration constants (lines 8-12) -/

def DONOR_TYPE : String := "Catalog"
def DONOR_NAME : String := "Предметы"
def CLONE_NAME : String := "УТО_Тест"

/-- The pattern `f".{name}"` of the first `str.replace` on line 51. -/
def dotPat (name : String) : List Char := '.' :: name.data

/-- The pattern `f">{name}<"` of the second `str.replace` on line 51. -/
def anglePat (name : String) : List Char := '>' :: name.data ++ ['<']

/-- The content transformation of `clone_and_regenerate` (lines 50-55):
replace `".донор"`, then `">донор<"`, then regenerate every canonical
identifier with fresh values `g n, g (n+1), ...`. -/
def clone_content (dn cn : String) (g : Nat → List Char) (n : Nat) (donor : List Char) :
    List Char :=
  subUUID g n (pyReplace (anglePat dn) (anglePat cn) (pyReplace (dotPat dn) (dotPat cn) donor))

/-- `".Предметы"`, the first replaced pattern. -/
def dotD : List Char := dotPat DONOR_NAME
/-- `".УТО_Тест"`, its replacement. -/
def dotC : List Char := dotPat CLONE_NAME
/-- `">Предметы<"`, the second replaced pattern. -/
def angD : List Char := anglePat DONOR_NAME
/-- `">УТО_Тест<"`, its replacement. -/
def angC : List Char := anglePat CLONE_NAME

/-- Single-pass combination of the two name substitutions of line 51,
specialised to the configured donor and clone names.  Proof device for the
equivalence with the sequential pair of `str.replace` calls. -/
def namePassGo : Nat → List Char → List Char
  | _, [] => []
  | k + 1, _ :: t => namePassGo k t
  | 0, c :: t =>
    if dotD.isPrefixOf (c :: t) then
      dotC ++ namePassGo 8 t
    else if angD.isPrefixOf (c :: t) then
      angC ++ namePassGo 9 t
    else
      c :: namePassGo 0 t

def namePass (s : List Char) : List Char := namePassGo 0 s

/-- Modelled from the spec's guarantee (section 4.2): a single simultaneous
left-to-right pass over the donor text that replaces each occurrence of
`".донор"`, `">донор<"`, and each canonical-identifier-shaped substring
(leftmost, non-overlapping) and copies every other byte unchanged.  The
three patterns can never overlap (their character alphabets are disjoint at
every alignment), so this pass is the spec's "byte-for-byte except for the
specified substitutions" description. -/
def specSimultaneousGo (g : Nat → List Char) : Nat → Nat → List Char → List Char
  | _, _, [] => []
  | k + 1, n, _ :: t => specSimultaneousGo g k n t
  | 0, n, c :: t =>
    if dotD.isPrefixOf (c :: t) then
      dotC ++ specSimultaneousGo g 8 n t
    else if angD.isPrefixOf (c :: t) then
      angC ++ specSimultaneousGo g 9 n t
    else
      match matchUUID (c :: t) with
      | some _ => g n ++ specSimultaneousGo g 35 (n + 1) t
      | none => c :: specSimultaneousGo g 0 n t

def specSimultaneous (g : Nat → List Char) (n : Nat) (s : List Char) : List Char :=
  specSimultaneousGo g 0 n s

example :
    clone_content DONOR_NAME CLONE_NAME (fun _ => "11112222-3333-4444-5555-666677778888".data) 0
      "<a>Catalog.Предметы</a><b>Предметы</b><u>ABCDEF01-2345-6789-abcd-ef0011223344</u>".data =
    "<a>Catalog.УТО_Тест</a><b>УТО_Тест</b><u>11112222-3333-4444-5555-666677778888</u>".data := by
  decide

example :
    specSimultaneous (fun _ => "11112222-3333-4444-5555-666677778888".data) 0
      "<a>Catalog.Предметы</a><b>Предметы</b><u>ABCDEF01-2345-6789-abcd-ef0011223344</u>".data =
    "<a>Catalog.УТО_Тест</a><b>УТО_Тест</b><u>11112222-3333-4444-5555-666677778888</u>".data := by
  decide

/-! ## Unfolding lemmas for the scanners -/

theorem dotD_cons : dotD = '.' :: DONOR_NAME.data := rfl
theorem dotC_cons : dotC = '.' :: CLONE_NAME.data := rfl
theorem angD_cons : angD = '>' :: (DONOR_NAME.data ++ ['<']) := rfl
theorem angC_cons : angC = '>' :: (CLONE_NAME.data ++ ['<']) := rfl

theorem namePassGo_skip : ∀ (k : Nat) (s : List Char), namePassGo k s = namePassGo 0 (s.drop k) := by
  intro k
  induction k with
  | zero => intro s; simp
  | succ k ih =>
    intro s
    cases s with
    | nil => simp [namePassGo]
    | cons c t => simpa [namePassGo] using ih t

theorem namePass_nil : namePass [] = [] := rfl

theorem namePass_cons_dot (c : Char) (t : List Char) (h : dotD.isPrefixOf (c :: t)) :
    namePass (c :: t) = dotC ++ namePass (t.drop 8) := by
  show namePassGo 0 (c :: t) = _
  rw [show namePassGo 0 (c :: t) =
        if dotD.isPrefixOf (c :: t) then dotC ++ namePassGo 8 t
        else if angD.isPrefixOf (c :: t) then angC ++ namePassGo 9 t
        else c :: namePassGo 0 t from rfl,
      if_pos h, namePassGo_skip]
  rfl

theorem namePass_cons_ang (c : Char) (t : List Char) (h1 : ¬ dotD.isPrefixOf (c :: t))
    (h2 : angD.isPrefixOf (c :: t)) :
    namePass (c :: t) = angC ++ namePass (t.drop 9) := by
  show namePassGo 0 (c :: t) = _
  rw [show namePassGo 0 (c :: t) =
        if dotD.isPrefixOf (c :: t) then dotC ++ namePassGo 8 t
        else if angD.isPrefixOf (c :: t) then angC ++ namePassGo 9 t
        else c :: namePassGo 0 t from rfl,
      if_neg h1, if_pos h2, namePassGo_skip]
  rfl

theorem namePass_cons_keep (c : Char) (t : List Char) (h1 : ¬ dotD.isPrefixOf (c :: t))
    (h2 : ¬ angD.isPrefixOf (c :: t)) :
    namePass (c :: t) = c :: namePass t := by
  show namePassGo 0 (c :: t) = _
  rw [show namePassGo 0 (c :: t) =
        if dotD.isPrefixOf (c :: t) then dotC ++ namePassGo 8 t
        else if angD.isPrefixOf (c :: t) then angC ++ namePassGo 9 t
        else c :: namePassGo 0 t from rfl,
      if_neg h1, if_neg h2]
  rfl

/-- Replacing `p :: ps` leaves untouched any leading segment that avoids the
head character `p`. -/
theorem pyReplace_append_of_ne_head (p : Char) (ps rep X : List Char) :
    ∀ pre : List Char, (∀ c ∈ pre, c ≠ p) →
      pyReplace (p :: ps) rep (pre ++ X) = pre ++ pyReplace (p :: ps) rep X := by
  intro pre
  induction pre with
  | nil => intro _; simp
  | cons c pre ih =>
    intro h
    have hc : c ≠ p := h c (by simp)
    have hnp : ¬ (p :: ps).isPrefixOf (c :: (pre ++ X)) := by
      rw [List.isPrefixOf_iff_prefix, List.cons_prefix_cons]
      rintro ⟨h1, -⟩
      exact hc h1.symm
    rw [List.cons_append, pyReplace_cons_neg _ _ _ _ hnp,
      ih (fun d hd => h d (by simp [hd])), List.cons_append]

/-- A prefix of the output of the first (dot) replacement that contains no
`'.'` is already a prefix of the input. -/
theorem dot_replace_prefix_elim :
    ∀ w : List Char, (∀ ch ∈ w, ch ≠ '.') →
      ∀ s : List Char, w.isPrefixOf (pyReplace dotD dotC s) → w.isPrefixOf s := by
  intro w
  induction w with
  | nil => intro _ s _; rw [List.isPrefixOf_iff_prefix]; exact List.nil_prefix
  | cons a w ih =>
    intro h s hpre
    have ha : a ≠ '.' := h a (by simp)
    cases s with
    | nil =>
      rw [pyReplace_nil, List.isPrefixOf_iff_prefix] at hpre
      exact absurd (List.prefix_nil.mp hpre) (by simp)
    | cons c t =>
      by_cases hd : dotD.isPrefixOf (c :: t)
      · exfalso
        rw [pyReplace_cons_pos dotD dotC c t (by decide) hd, dotC_cons, List.cons_append,
          List.isPrefixOf_iff_prefix, List.cons_prefix_cons] at hpre
        exact ha hpre.1
      · rw [pyReplace_cons_neg _ _ _ _ hd, List.isPrefixOf_iff_prefix,
          List.cons_prefix_cons] at hpre
        obtain ⟨rfl, hw⟩ := hpre
        have := ih (fun d hd => h d (by simp [hd])) t (List.isPrefixOf_iff_prefix.mpr hw)
        rw [List.isPrefixOf_iff_prefix, List.cons_prefix_cons]
        exact ⟨rfl, List.isPrefixOf_iff_prefix.mp this⟩

/-- Step 1 of the clone-content equivalence: the two sequential
`str.replace` calls of line 51 equal the combined single pass. -/
theorem replace_pair_eq_namePass : ∀ s : List Char,
    pyReplace angD angC (pyReplace dotD dotC s) = namePass s := by
  suffices H : ∀ (n : Nat) (s : List Char), s.length = n →
      pyReplace angD angC (pyReplace dotD dotC s) = namePass s by
    intro s; exact H s.length s rfl
  intro n
  induction n using Nat.strong_induction_on with
  | _ n ih =>
  intro s hn
  have IH : ∀ s' : List Char, s'.length < s.length →
      pyReplace angD angC (pyReplace dotD dotC s') = namePass s' := by
    intro s' h
    exact ih s'.length (hn ▸ h) s' rfl
  cases s with
  | nil => rw [pyReplace_nil, pyReplace_nil, namePass_nil]
  | cons c t =>
    by_cases hd : dotD.isPrefixOf (c :: t)
    · obtain ⟨rest, hrest⟩ := List.isPrefixOf_iff_prefix.mp hd
      have hdrop : (c :: t).drop dotD.length = rest := by
        rw [← hrest]; exact List.drop_left dotD rest
      have hrest8 : rest = t.drop 8 := by
        rw [dotD_cons, List.cons_append] at hrest
        injection hrest with h1 h2
        rw [← h2, List.drop_left' (by decide : (DONOR_NAME.data).length = 8)]
      have hrlen : rest.length < (c :: t).length := by
        rw [hrest8]
        simp only [List.length_drop, List.length_cons]
        omega
      rw [pyReplace_cons_pos dotD dotC c t (by decide) hd, hdrop, dotC_cons, angD_cons,
        pyReplace_append_of_ne_head '>' (DONOR_NAME.data ++ ['<']) angC _
          ('.' :: CLONE_NAME.data) (by decide),
        ← angD_cons, ← dotC_cons, IH rest hrlen, namePass_cons_dot c t hd, hrest8]
    · by_cases hg : angD.isPrefixOf (c :: t)
      · obtain ⟨rest, hrest⟩ := List.isPrefixOf_iff_prefix.mp hg
        have hrest9 : rest = t.drop 9 := by
          rw [angD_cons, List.cons_append] at hrest
          injection hrest with h1 h2
          rw [← h2, List.drop_left' (by decide : (DONOR_NAME.data ++ ['<']).length = 9)]
        have hrlen : rest.length < (c :: t).length := by
          rw [hrest9]
          simp only [List.length_drop, List.length_cons]
          omega
        have hinner : pyReplace dotD dotC (c :: t) = angD ++ pyReplace dotD dotC rest := by
          rw [← hrest, dotD_cons,
            pyReplace_append_of_ne_head '.' DONOR_NAME.data dotC rest angD (by decide)]
        have houter : pyReplace angD angC (angD ++ pyReplace dotD dotC rest) =
            angC ++ pyReplace angD angC (pyReplace dotD dotC rest) := by
          have hpre : angD.isPrefixOf (angD ++ pyReplace dotD dotC rest) := by
            rw [List.isPrefixOf_iff_prefix]; exact List.prefix_append _ _
          rw [angD_cons, List.cons_append] at hpre ⊢
          rw [pyReplace_cons_pos _ _ _ _ (by decide) hpre]
          congr 1
        rw [hinner, houter, IH rest hrlen, namePass_cons_ang c t hd hg, hrest9]
      · have hinner : pyReplace dotD dotC (c :: t) = c :: pyReplace dotD dotC t :=
          pyReplace_cons_neg _ _ _ _ hd
        have hnang : ¬ angD.isPrefixOf (c :: pyReplace dotD dotC t) := by
          intro hp
          rw [angD_cons, List.isPrefixOf_iff_prefix, List.cons_prefix_cons] at hp
          obtain ⟨hc, hw⟩ := hp
          have helim := dot_replace_prefix_elim (DONOR_NAME.data ++ ['<']) (by decide) t
            (List.isPrefixOf_iff_prefix.mpr hw)
          apply hg
          rw [angD_cons, List.isPrefixOf_iff_prefix, List.cons_prefix_cons]
          exact ⟨hc, List.isPrefixOf_iff_prefix.mp helim⟩
        rw [hinner, pyReplace_cons_neg _ _ _ _ hnang,
          IH t (by exact Nat.lt_succ_self t.length), namePass_cons_keep c t hd hg]

/-! ## Structure of canonical-identifier matches -/

/-- The five hyphen-separated groups of a canonical identifier. -/
def mkUUID (u1 u2 u3 u4 u5 : List Char) : List Char :=
  u1 ++ '-' :: (u2 ++ '-' :: (u3 ++ '-' :: (u4 ++ '-' :: u5)))

theorem hexRun_append : ∀ (n : Nat) (u X : List Char), u.length = n →
    (∀ c ∈ u, isHexDigit c) → hexRun n (u ++ X) = some X := by
  intro n
  induction n with
  | zero =>
    intro u X hlen _
    rw [List.length_eq_zero.mp hlen]
    rfl
  | succ n ih =>
    intro u X hlen hhex
    cases u with
    | nil => simp at hlen
    | cons c u =>
      rw [List.cons_append,
        show hexRun (n + 1) (c :: (u ++ X)) =
          if isHexDigit c then hexRun n (u ++ X) else none from rfl,
        if_pos (hhex c (by simp)),
        ih u X (by simpa using hlen) (fun d hd => hhex d (by simp [hd]))]

theorem hexRun_some_decomp : ∀ (n : Nat) (s t : List Char), hexRun n s = some t →
    ∃ u, s = u ++ t ∧ u.length = n ∧ ∀ c ∈ u, isHexDigit c := by
  intro n
  induction n with
  | zero =>
    intro s t h
    have hs : s = t := by simpa [hexRun] using h
    exact ⟨[], by simp [hs], rfl, by simp⟩
  | succ n ih =>
    intro s t h
    cases s with
    | nil => simp [hexRun] at h
    | cons c s' =>
      rw [show hexRun (n + 1) (c :: s') =
          if isHexDigit c then hexRun n s' else none from rfl] at h
      by_cases hc : isHexDigit c
      · rw [if_pos hc] at h
        obtain ⟨u, h1, h2, h3⟩ := ih s' t h
        refine ⟨c :: u, by simp [h1], by simp [h2], ?_⟩
        intro d hd
        rcases List.mem_cons.mp hd with h | h
        · exact h ▸ hc
        · exact h3 d h
      · rw [if_neg hc] at h
        exact absurd h (by simp)

theorem dashThen_some {s t : List Char} (h : dashThen s = some t) : s = '-' :: t := by
  cases s with
  | nil => simp [dashThen] at h
  | cons c s' =>
    by_cases hc : c = '-'
    · subst hc
      have hs : s' = t := by simpa [dashThen] using h
      rw [hs]
    · simp [dashThen, hc] at h

theorem matchUUID_mk (u1 u2 u3 u4 u5 X : List Char)
    (l1 : u1.length = 8) (l2 : u2.length = 4) (l3 : u3.length = 4) (l4 : u4.length = 4)
    (l5 : u5.length = 12)
    (h1 : ∀ c ∈ u1, isHexDigit c) (h2 : ∀ c ∈ u2, isHexDigit c)
    (h3 : ∀ c ∈ u3, isHexDigit c) (h4 : ∀ c ∈ u4, isHexDigit c)
    (h5 : ∀ c ∈ u5, isHexDigit c) :
    matchUUID (mkUUID u1 u2 u3 u4 u5 ++ X) = some X := by
  unfold matchUUID mkUUID
  simp only [List.append_assoc, List.cons_append]
  rw [hexRun_append 8 u1 _ l1 h1]
  simp only [Option.bind]
  rw [show dashThen ('-' :: (u2 ++ '-' :: (u3 ++ '-' :: (u4 ++ '-' :: (u5 ++ X))))) =
      some (u2 ++ '-' :: (u3 ++ '-' :: (u4 ++ '-' :: (u5 ++ X)))) from by simp [dashThen]]
  simp only [Option.bind]
  rw [hexRun_append 4 u2 _ l2 h2]
  simp only [Option.bind]
  rw [show dashThen ('-' :: (u3 ++ '-' :: (u4 ++ '-' :: (u5 ++ X)))) =
      some (u3 ++ '-' :: (u4 ++ '-' :: (u5 ++ X))) from by simp [dashThen]]
  simp only [Option.bind]
  rw [hexRun_append 4 u3 _ l3 h3]
  simp only [Option.bind]
  rw [show dashThen ('-' :: (u4 ++ '-' :: (u5 ++ X))) =
      some (u4 ++ '-' :: (u5 ++ X)) from by simp [dashThen]]
  simp only [Option.bind]
  rw [hexRun_append 4 u4 _ l4 h4]
  simp only [Option.bind]
  rw [show dashThen ('-' :: (u5 ++ X)) = some (u5 ++ X) from by simp [dashThen]]
  simp only [Option.bind]
  exact hexRun_append 12 u5 X l5 h5

theorem matchUUID_some_decomp {s r : List Char} (h : matchUUID s = some r) :
    ∃ u1 u2 u3 u4 u5, s = mkUUID u1 u2 u3 u4 u5 ++ r ∧
      u1.length = 8 ∧ u2.length = 4 ∧ u3.length = 4 ∧ u4.length = 4 ∧ u5.length = 12 ∧
      (∀ c ∈ u1, isHexDigit c) ∧ (∀ c ∈ u2, isHexDigit c) ∧ (∀ c ∈ u3, isHexDigit c) ∧
      (∀ c ∈ u4, isHexDigit c) ∧ (∀ c ∈ u5, isHexDigit c) := by
  unfold matchUUID at h
  cases e1 : hexRun 8 s with
  | none => rw [e1] at h; simp [Option.bind] at h
  | some s1 =>
  rw [e1] at h; simp only [Option.bind] at h
  cases e2 : dashThen s1 with
  | none => rw [e2] at h; simp [Option.bind] at h
  | some s2 =>
  rw [e2] at h; simp only [Option.bind] at h
  cases e3 : hexRun 4 s2 with
  | none => rw [e3] at h; simp [Option.bind] at h
  | some s3 =>
  rw [e3] at h; simp only [Option.bind] at h
  cases e4 : dashThen s3 with
  | none => rw [e4] at h; simp [Option.bind] at h
  | some s4 =>
  rw [e4] at h; simp only [Option.bind] at h
  cases e5 : hexRun 4 s4 with
  | none => rw [e5] at h; simp [Option.bind] at h
  | some s5 =>
  rw [e5] at h; simp only [Option.bind] at h
  cases e6 : dashThen s5 with
  | none => rw [e6] at h; simp [Option.bind] at h
  | some s6 =>
  rw [e6] at h; simp only [Option.bind] at h
  cases e7 : hexRun 4 s6 with
  | none => rw [e7] at h; simp [Option.bind] at h
  | some s7 =>
  rw [e7] at h; simp only [Option.bind] at h
  cases e8 : dashThen s7 with
  | none => rw [e8] at h; simp [Option.bind] at h
  | some s8 =>
  rw [e8] at h; simp only [Option.bind] at h
  obtain ⟨u1, q1, l1, x1⟩ := hexRun_some_decomp 8 s s1 e1
  obtain ⟨u2, q2, l2, x2⟩ := hexRun_some_decomp 4 s2 s3 e3
  obtain ⟨u3, q3, l3, x3⟩ := hexRun_some_decomp 4 s4 s5 e5
  obtain ⟨u4, q4, l4, x4⟩ := hexRun_some_decomp 4 s6 s7 e7
  obtain ⟨u5, q5, l5, x5⟩ := hexRun_some_decomp 12 s8 r h
  refine ⟨u1, u2, u3, u4, u5, ?_, l1, l2, l3, l4, l5, x1, x2, x3, x4, x5⟩
  rw [mkUUID, q1, dashThen_some e2, q2, dashThen_some e4, q3, dashThen_some e6, q4,
    dashThen_some e8, q5]
  simp [List.append_assoc]

theorem mkUUID_length {u1 u2 u3 u4 u5 : List Char}
    (l1 : u1.length = 8) (l2 : u2.length = 4) (l3 : u3.length = 4) (l4 : u4.length = 4)
    (l5 : u5.length = 12) : (mkUUID u1 u2 u3 u4 u5).length = 36 := by
  simp [mkUUID, l1, l2, l3, l4, l5]

theorem mkUUID_chars {u1 u2 u3 u4 u5 : List Char}
    (x1 : ∀ c ∈ u1, isHexDigit c) (x2 : ∀ c ∈ u2, isHexDigit c)
    (x3 : ∀ c ∈ u3, isHexDigit c) (x4 : ∀ c ∈ u4, isHexDigit c)
    (x5 : ∀ c ∈ u5, isHexDigit c) :
    ∀ c ∈ mkUUID u1 u2 u3 u4 u5, isHexDigit c = true ∨ c = '-' := by
  intro c hc
  simp only [mkUUID, List.mem_append, List.mem_cons] at hc
  rcases hc with h | h | h | h | h | h | h | h | h
  · exact Or.inl (x1 c h)
  · exact Or.inr h
  · exact Or.inl (x2 c h)
  · exact Or.inr h
  · exact Or.inl (x3 c h)
  · exact Or.inr h
  · exact Or.inl (x4 c h)
  · exact Or.inr h
  · exact Or.inl (x5 c h)

/-- Convenient repackaging: a successful match splits off a 36-character
identifier-shaped prefix. -/
theorem matchUUID_some_split {s r : List Char} (h : matchUUID s = some r) :
    ∃ u, s = u ++ r ∧ u.length = 36 ∧ isUUID u ∧
      ∀ c ∈ u, isHexDigit c = true ∨ c = '-' := by
  obtain ⟨u1, u2, u3, u4, u5, hs, l1, l2, l3, l4, l5, x1, x2, x3, x4, x5⟩ :=
    matchUUID_some_decomp h
  refine ⟨mkUUID u1 u2 u3 u4 u5, hs, mkUUID_length l1 l2 l3 l4 l5, ?_, ?_⟩
  · show matchUUID _ = some []
    have := matchUUID_mk u1 u2 u3 u4 u5 [] l1 l2 l3 l4 l5 x1 x2 x3 x4 x5
    simpa using this
  · exact mkUUID_chars x1 x2 x3 x4 x5

theorem matchUUID_append {u : List Char} (X : List Char) (h : isUUID u) :
    matchUUID (u ++ X) = some X := by
  obtain ⟨u1, u2, u3, u4, u5, hs, l1, l2, l3, l4, l5, x1, x2, x3, x4, x5⟩ :=
    matchUUID_some_decomp (h : matchUUID u = some [])
  rw [List.append_nil] at hs
  rw [hs]
  exact matchUUID_mk u1 u2 u3 u4 u5 X l1 l2 l3 l4 l5 x1 x2 x3 x4 x5

theorem isUUID_length {u : List Char} (h : isUUID u) : u.length = 36 := by
  obtain ⟨v, hv, hlen, -, -⟩ := matchUUID_some_split (h : matchUUID u = some [])
  rw [List.append_nil] at hv
  rw [hv, hlen]

theorem isUUID_chars {u : List Char} (h : isUUID u) :
    ∀ c ∈ u, isHexDigit c = true ∨ c = '-' := by
  obtain ⟨v, hv, -, -, hchars⟩ := matchUUID_some_split (h : matchUUID u = some [])
  rw [List.append_nil] at hv
  rw [hv]
  exact hchars

/-- A match always begins with a hex digit, so no match starts at a
non-hex character. -/
theorem matchUUID_cons_nonhex {c : Char} (t : List Char) (h : isHexDigit c = false) :
    matchUUID (c :: t) = none := by
  cases hm : matchUUID (c :: t) with
  | none => rfl
  | some r =>
    exfalso
    obtain ⟨u1, u2, u3, u4, u5, hs, l1, -, -, -, -, x1, -, -, -, -⟩ :=
      matchUUID_some_decomp hm
    cases u1 with
    | nil => simp at l1
    | cons d u1' =>
      rw [mkUUID] at hs
      simp only [List.cons_append, List.append_assoc] at hs
      injection hs with h1 h2
      have hd : isHexDigit d := x1 d (by simp)
      rw [← h1, h] at hd
      exact Bool.false_ne_true hd

theorem matchUUID_cons_drop {c : Char} {t r : List Char}
    (h : matchUUID (c :: t) = some r) : r = t.drop 35 := by
  obtain ⟨u, hu, hlen, -, -⟩ := matchUUID_some_split h
  cases u with
  | nil => simp at hlen
  | cons d u' =>
    rw [List.cons_append] at hu
    injection hu with h1 h2
    have hl : u'.length = 35 := by
      simp only [List.length_cons] at hlen
      omega
    rw [h2, List.drop_left' hl]

/-! ## Unfolding lemmas for the identifier-substitution scanners -/

theorem subUUIDGo_skip (g : Nat → List Char) :
    ∀ (k n : Nat) (s : List Char), subUUIDGo g k n s = subUUIDGo g 0 n (s.drop k) := by
  intro k
  induction k with
  | zero => intro n s; simp
  | succ k ih =>
    intro n s
    cases s with
    | nil => simp [subUUIDGo]
    | cons c t => simpa [subUUIDGo] using ih n t

theorem subUUID_nil (g : Nat → List Char) (n : Nat) : subUUID g n [] = [] := rfl

theorem subUUID_cons_some (g : Nat → List Char) (n : Nat) {c : Char} {t r : List Char}
    (h : matchUUID (c :: t) = some r) :
    subUUID g n (c :: t) = g n ++ subUUID g (n + 1) r := by
  have h0 : subUUIDGo g 0 n (c :: t) =
      match matchUUID (c :: t) with
      | some _ => g n ++ subUUIDGo g 35 (n + 1) t
      | none => c :: subUUIDGo g 0 n t := rfl
  rw [h] at h0
  show subUUIDGo g 0 n (c :: t) = _
  rw [h0, subUUIDGo_skip, matchUUID_cons_drop h]
  rfl

theorem subUUID_cons_none (g : Nat → List Char) (n : Nat) {c : Char} {t : List Char}
    (h : matchUUID (c :: t) = none) :
    subUUID g n (c :: t) = c :: subUUID g n t := by
  have h0 : subUUIDGo g 0 n (c :: t) =
      match matchUUID (c :: t) with
      | some _ => g n ++ subUUIDGo g 35 (n + 1) t
      | none => c :: subUUIDGo g 0 n t := rfl
  rw [h] at h0
  exact h0

theorem subUUID_append_nonhex (g : Nat → List Char) (n : Nat) (X : List Char) :
    ∀ pre : List Char, (∀ c ∈ pre, isHexDigit c = false) →
      subUUID g n (pre ++ X) = pre ++ subUUID g n X := by
  intro pre
  induction pre with
  | nil => intro _; simp
  | cons c pre ih =>
    intro h
    rw [List.cons_append,
      subUUID_cons_none g n (matchUUID_cons_nonhex _ (h c (by simp))),
      ih (fun d hd => h d (by simp [hd])), List.cons_append]

theorem specGo_skip (g : Nat → List Char) :
    ∀ (k n : Nat) (s : List Char),
      specSimultaneousGo g k n s = specSimultaneousGo g 0 n (s.drop k) := by
  intro k
  induction k with
  | zero => intro n s; simp
  | succ k ih =>
    intro n s
    cases s with
    | nil => simp [specSimultaneousGo]
    | cons c t => simpa [specSimultaneousGo] using ih n t

theorem spec_nil (g : Nat → List Char) (n : Nat) : specSimultaneous g n [] = [] := rfl

theorem spec_cons_unfold (g : Nat → List Char) (n : Nat) (c : Char) (t : List Char) :
    specSimultaneousGo g 0 n (c :: t) =
      if dotD.isPrefixOf (c :: t) then dotC ++ specSimultaneousGo g 8 n t
      else if angD.isPrefixOf (c :: t) then angC ++ specSimultaneousGo g 9 n t
      else
        match matchUUID (c :: t) with
        | some _ => g n ++ specSimultaneousGo g 35 (n + 1) t
        | none => c :: specSimultaneousGo g 0 n t := rfl

theorem spec_cons_dot (g : Nat → List Char) (n : Nat) {c : Char} {t : List Char}
    (h : dotD.isPrefixOf (c :: t)) :
    specSimultaneous g n (c :: t) = dotC ++ specSimultaneous g n (t.drop 8) := by
  show specSimultaneousGo g 0 n (c :: t) = _
  rw [spec_cons_unfold, if_pos h, specGo_skip]
  rfl

theorem spec_cons_ang (g : Nat → List Char) (n : Nat) {c : Char} {t : List Char}
    (h1 : ¬ dotD.isPrefixOf (c :: t)) (h2 : angD.isPrefixOf (c :: t)) :
    specSimultaneous g n (c :: t) = angC ++ specSimultaneous g n (t.drop 9) := by
  show specSimultaneousGo g 0 n (c :: t) = _
  rw [spec_cons_unfold, if_neg h1, if_pos h2, specGo_skip]
  rfl

theorem spec_cons_some (g : Nat → List Char) (n : Nat) {c : Char} {t r : List Char}
    (h1 : ¬ dotD.isPrefixOf (c :: t)) (h2 : ¬ angD.isPrefixOf (c :: t))
    (h : matchUUID (c :: t) = some r) :
    specSimultaneous g n (c :: t) = g n ++ specSimultaneous g (n + 1) r := by
  show specSimultaneousGo g 0 n (c :: t) = _
  rw [spec_cons_unfold, if_neg h1, if_neg h2, h, specGo_skip, matchUUID_cons_drop h]
  rfl

theorem spec_cons_none (g : Nat → List Char) (n : Nat) {c : Char} {t : List Char}
    (h1 : ¬ dotD.isPrefixOf (c :: t)) (h2 : ¬ angD.isPrefixOf (c :: t))
    (h : matchUUID (c :: t) = none) :
    specSimultaneous g n (c :: t) = c :: specSimultaneous g n t := by
  show specSimultaneousGo g 0 n (c :: t) = _
  rw [spec_cons_unfold, if_neg h1, if_neg h2, h]
  rfl

/-! ## Character classes

The identifier matcher only inspects whether a character is a hex digit and
whether it is a hyphen.  Strings that agree pointwise on these two
questions are indistinguishable to it; the combined name substitution
produces such a class-equal string. -/

def sameClass (c d : Char) : Bool :=
  decide (isHexDigit c = isHexDigit d) && decide ((c = '-') ↔ (d = '-'))

def classEq : List Char → List Char → Bool
  | [], [] => true
  | c :: cs, d :: ds => sameClass c d && classEq cs ds
  | _, _ => false

theorem sameClass_refl (c : Char) : sameClass c c = true := by
  simp [sameClass]

theorem sameClass_symm {c d : Char} (h : sameClass c d = true) : sameClass d c = true := by
  simp only [sameClass, Bool.and_eq_true, decide_eq_true_eq] at h ⊢
  exact ⟨h.1.symm, h.2.symm⟩

theorem classEq_refl : ∀ s : List Char, classEq s s = true := by
  intro s
  induction s with
  | nil => rfl
  | cons c t ih => simp [classEq, sameClass_refl, ih]

theorem classEq_symm : ∀ {x y : List Char}, classEq x y = true → classEq y x = true := by
  intro x
  induction x with
  | nil => intro y h; cases y with
    | nil => rfl
    | cons d ds => simp [classEq] at h
  | cons c cs ih =>
    intro y h
    cases y with
    | nil => simp [classEq] at h
    | cons d ds =>
      simp only [classEq, Bool.and_eq_true] at h ⊢
      exact ⟨sameClass_symm h.1, ih h.2⟩

theorem classEq_append : ∀ {a b x y : List Char}, classEq a b = true → classEq x y = true →
    classEq (a ++ x) (b ++ y) = true := by
  intro a
  induction a with
  | nil => intro b x y hab hxy; cases b with
    | nil => simpa using hxy
    | cons d ds => simp [classEq] at hab
  | cons c cs ih =>
    intro b x y hab hxy
    cases b with
    | nil => simp [classEq] at hab
    | cons d ds =>
      simp only [classEq, Bool.and_eq_true] at hab
      simp only [List.cons_append, classEq, Bool.and_eq_true]
      exact ⟨hab.1, ih hab.2 hxy⟩

theorem hexRun_classEq_some : ∀ (n : Nat) {x y x' : List Char}, classEq x y = true →
    hexRun n x = some x' → ∃ y', hexRun n y = some y' ∧ classEq x' y' = true := by
  intro n
  induction n with
  | zero =>
    intro x y x' hc h
    have hx : x = x' := by simpa [hexRun] using h
    exact ⟨y, rfl, hx ▸ hc⟩
  | succ n ih =>
    intro x y x' hc h
    cases x with
    | nil => simp [hexRun] at h
    | cons c cs =>
      cases y with
      | nil => simp [classEq] at hc
      | cons d ds =>
        simp only [classEq, Bool.and_eq_true] at hc
        rw [show hexRun (n + 1) (c :: cs) =
            if isHexDigit c then hexRun n cs else none from rfl] at h
        by_cases hhc : isHexDigit c
        · rw [if_pos hhc] at h
          obtain ⟨y', hy', hcy⟩ := ih hc.2 h
          have hhd : isHexDigit d = true := by
            have := (by simpa [sameClass] using hc.1 :
              isHexDigit c = isHexDigit d ∧ ((c = '-') ↔ (d = '-'))).1
            rw [← this, hhc]
          refine ⟨y', ?_, hcy⟩
          rw [show hexRun (n + 1) (d :: ds) =
              if isHexDigit d then hexRun n ds else none from rfl, if_pos hhd, hy']
        · rw [if_neg hhc] at h
          exact absurd h (by simp)

theorem dashThen_classEq_some : ∀ {x y x' : List Char}, classEq x y = true →
    dashThen x = some x' → ∃ y', dashThen y = some y' ∧ classEq x' y' = true := by
  intro x y x' hc h
  cases x with
  | nil => simp [dashThen] at h
  | cons c cs =>
    cases y with
    | nil => simp [classEq] at hc
    | cons d ds =>
      simp only [classEq, Bool.and_eq_true] at hc
      have hsc : isHexDigit c = isHexDigit d ∧ ((c = '-') ↔ (d = '-')) := by
        simpa [sameClass] using hc.1
      by_cases hcc : c = '-'
      · have hdd : d = '-' := hsc.2.mp hcc
        have hx : cs = x' := by simpa [dashThen, hcc] using h
        refine ⟨ds, by simp [dashThen, hdd], hx ▸ hc.2⟩
      · simp [dashThen, hcc] at h

theorem matchUUID_classEq_some : ∀ {x y x' : List Char}, classEq x y = true →
    matchUUID x = some x' → ∃ y', matchUUID y = some y' ∧ classEq x' y' = true := by
  intro x y x' hc h
  unfold matchUUID at h ⊢
  cases e1 : hexRun 8 x with
  | none => rw [e1] at h; simp [Option.bind] at h
  | some s1 =>
  rw [e1] at h; simp only [Option.bind] at h
  obtain ⟨y1, f1, c1⟩ := hexRun_classEq_some 8 hc e1
  rw [f1]; simp only [Option.bind]
  cases e2 : dashThen s1 with
  | none => rw [e2] at h; simp [Option.bind] at h
  | some s2 =>
  rw [e2] at h; simp only [Option.bind] at h
  obtain ⟨y2, f2, c2⟩ := dashThen_classEq_some c1 e2
  rw [f2]; simp only [Option.bind]
  cases e3 : hexRun 4 s2 with
  | none => rw [e3] at h; simp [Option.bind] at h
  | some s3 =>
  rw [e3] at h; simp only [Option.bind] at h
  obtain ⟨y3, f3, c3⟩ := hexRun_classEq_some 4 c2 e3
  rw [f3]; simp only [Option.bind]
  cases e4 : dashThen s3 with
  | none => rw [e4] at h; simp [Option.bind] at h
  | some s4 =>
  rw [e4] at h; simp only [Option.bind] at h
  obtain ⟨y4, f4, c4⟩ := dashThen_classEq_some c3 e4
  rw [f4]; simp only [Option.bind]
  cases e5 : hexRun 4 s4 with
  | none => rw [e5] at h; simp [Option.bind] at h
  | some s5 =>
  rw [e5] at h; simp only [Option.bind] at h
  obtain ⟨y5, f5, c5⟩ := hexRun_classEq_some 4 c4 e5
  rw [f5]; simp only [Option.bind]
  cases e6 : dashThen s5 with
  | none => rw [e6] at h; simp [Option.bind] at h
  | some s6 =>
  rw [e6] at h; simp only [Option.bind] at h
  obtain ⟨y6, f6, c6⟩ := dashThen_classEq_some c5 e6
  rw [f6]; simp only [Option.bind]
  cases e7 : hexRun 4 s6 with
  | none => rw [e7] at h; simp [Option.bind] at h
  | some s7 =>
  rw [e7] at h; simp only [Option.bind] at h
  obtain ⟨y7, f7, c7⟩ := hexRun_classEq_some 4 c6 e7
  rw [f7]; simp only [Option.bind]
  cases e8 : dashThen s7 with
  | none => rw [e8] at h; simp [Option.bind] at h
  | some s8 =>
  rw [e8] at h; simp only [Option.bind] at h
  obtain ⟨y8, f8, c8⟩ := dashThen_classEq_some c7 e8
  rw [f8]; simp only [Option.bind]
  exact hexRun_classEq_some 12 c8 h

theorem matchUUID_classEq_none {x y : List Char} (hc : classEq x y = true)
    (h : matchUUID x = none) : matchUUID y = none := by
  cases hy : matchUUID y with
  | none => rfl
  | some y' =>
    obtain ⟨x', hx', -⟩ := matchUUID_classEq_some (classEq_symm hc) hy
    rw [h] at hx'
    exact absurd hx' (by simp)

/-- The combined name pass produces a class-equal string: the replaced
segments and their replacements consist of non-identifier characters, and
kept characters are unchanged. -/
theorem namePass_classEq : ∀ s : List Char, classEq s (namePass s) = true := by
  suffices H : ∀ (n : Nat) (s : List Char), s.length = n → classEq s (namePass s) = true by
    intro s; exact H s.length s rfl
  intro n
  induction n using Nat.strong_induction_on with
  | _ n ih =>
  intro s hn
  have IH : ∀ s' : List Char, s'.length < s.length → classEq s' (namePass s') = true := by
    intro s' h
    exact ih s'.length (hn ▸ h) s' rfl
  cases s with
  | nil => rfl
  | cons c t =>
    by_cases hd : dotD.isPrefixOf (c :: t)
    · obtain ⟨rest, hrest⟩ := List.isPrefixOf_iff_prefix.mp hd
      have hrest8 : rest = t.drop 8 := by
        rw [dotD_cons, List.cons_append] at hrest
        injection hrest with h1 h2
        rw [← h2, List.drop_left' (by decide : (DONOR_NAME.data).length = 8)]
      have hrlen : rest.length < (c :: t).length := by
        rw [hrest8]
        simp only [List.length_drop, List.length_cons]
        omega
      rw [namePass_cons_dot c t hd, ← hrest8, ← hrest]
      exact classEq_append (by decide) (IH rest hrlen)
    · by_cases hg : angD.isPrefixOf (c :: t)
      · obtain ⟨rest, hrest⟩ := List.isPrefixOf_iff_prefix.mp hg
        have hrest9 : rest = t.drop 9 := by
          rw [angD_cons, List.cons_append] at hrest
          injection hrest with h1 h2
          rw [← h2, List.drop_left' (by decide : (DONOR_NAME.data ++ ['<']).length = 9)]
        have hrlen : rest.length < (c :: t).length := by
          rw [hrest9]
          simp only [List.length_drop, List.length_cons]
          omega
        rw [namePass_cons_ang c t hd hg, ← hrest9, ← hrest]
        exact classEq_append (by decide) (IH rest hrlen)
      · rw [namePass_cons_keep c t hd hg]
        simp only [classEq, Bool.and_eq_true]
        exact ⟨sameClass_refl c, IH t (Nat.lt_succ_self t.length)⟩

/-- The name pass copies unchanged any leading segment free of `'.'` and
`'>'` (the head characters of the two replaced patterns). -/
theorem namePass_append_clean (Y : List Char) :
    ∀ w : List Char, (∀ ch ∈ w, ch ≠ '.' ∧ ch ≠ '>') →
      namePass (w ++ Y) = w ++ namePass Y := by
  intro w
  induction w with
  | nil => intro _; simp
  | cons a w ih =>
    intro h
    have ha := h a (by simp)
    have hnd : ¬ dotD.isPrefixOf (a :: (w ++ Y)) := by
      rw [dotD_cons, List.isPrefixOf_iff_prefix, List.cons_prefix_cons]
      rintro ⟨h1, -⟩
      exact ha.1 h1.symm
    have hna : ¬ angD.isPrefixOf (a :: (w ++ Y)) := by
      rw [angD_cons, List.isPrefixOf_iff_prefix, List.cons_prefix_cons]
      rintro ⟨h1, -⟩
      exact ha.2 h1.symm
    rw [List.cons_append, namePass_cons_keep _ _ hnd hna,
      ih (fun d hd => h d (by simp [hd])), List.cons_append]

theorem hex_or_dash_ne_special {ch : Char} (h : isHexDigit ch = true ∨ ch = '-') :
    ch ≠ '.' ∧ ch ≠ '>' := by
  rcases h with h | h
  · constructor <;> rintro rfl <;> revert h <;> decide
  · subst h; decide

/-- Step 2 of the clone-content equivalence: running the identifier
substitution after the combined name pass equals the single simultaneous
pass. -/
theorem subUUID_namePass_eq_spec : ∀ (g : Nat → List Char) (n : Nat) (s : List Char),
    subUUID g n (namePass s) = specSimultaneous g n s := by
  intro g
  suffices H : ∀ (m : Nat) (n : Nat) (s : List Char), s.length = m →
      subUUID g n (namePass s) = specSimultaneous g n s by
    intro n s; exact H s.length n s rfl
  intro m
  induction m using Nat.strong_induction_on with
  | _ m ih =>
  intro n s hm
  have IH : ∀ (n' : Nat) (s' : List Char), s'.length < s.length →
      subUUID g n' (namePass s') = specSimultaneous g n' s' := by
    intro n' s' h
    exact ih s'.length (hm ▸ h) n' s' rfl
  cases s with
  | nil => rfl
  | cons c t =>
    by_cases hd : dotD.isPrefixOf (c :: t)
    · have hlen : (t.drop 8).length < (c :: t).length := by
        simp only [List.length_drop, List.length_cons]
        omega
      rw [namePass_cons_dot c t hd,
        subUUID_append_nonhex g n _ dotC (by decide),
        IH n (t.drop 8) hlen, spec_cons_dot g n hd]
    · by_cases hg : angD.isPrefixOf (c :: t)
      · have hlen : (t.drop 9).length < (c :: t).length := by
          simp only [List.length_drop, List.length_cons]
          omega
        rw [namePass_cons_ang c t hd hg,
          subUUID_append_nonhex g n _ angC (by decide),
          IH n (t.drop 9) hlen, spec_cons_ang g n hd hg]
      · cases hmtc : matchUUID (c :: t) with
        | some r =>
          obtain ⟨u, hu, hulen, huid, huchars⟩ := matchUUID_some_split hmtc
          have hclean : ∀ ch ∈ u, ch ≠ '.' ∧ ch ≠ '>' :=
            fun ch hch => hex_or_dash_ne_special (huchars ch hch)
          have hnp : namePass (c :: t) = u ++ namePass r := by
            rw [hu, namePass_append_clean r u hclean]
          have hrlen : r.length < (c :: t).length := by
            have hlu := congrArg List.length hu
            simp only [List.length_append, List.length_cons] at hlu
            rw [hulen] at hlu
            simp only [List.length_cons]
            omega
          cases u with
          | nil => simp at hulen
          | cons d u' =>
            have hmu : matchUUID (d :: (u' ++ namePass r)) = some (namePass r) := by
              have := matchUUID_append (namePass r) huid
              rwa [List.cons_append] at this
            rw [hnp, List.cons_append, subUUID_cons_some g n hmu,
              IH (n + 1) r hrlen, spec_cons_some g n hd hg hmtc]
        | none =>
          have hce : classEq (c :: t) (c :: namePass t) = true := by
            simp only [classEq, Bool.and_eq_true]
            exact ⟨sameClass_refl c, namePass_classEq t⟩
          have hmn : matchUUID (c :: namePass t) = none :=
            matchUUID_classEq_none hce hmtc
          rw [namePass_cons_keep c t hd hg, subUUID_cons_none g n hmn,
            IH n t (Nat.lt_succ_self t.length), spec_cons_none g n hd hg hmtc]

/-- The full clone-content pipeline (three sequential passes) equals the
single simultaneous substitution pass. -/
theorem clone_content_eq_spec (g : Nat → List Char) (n : Nat) (donor : List Char) :
    clone_content DONOR_NAME CLONE_NAME g n donor = specSimultaneous g n donor := by
  show subUUID g n (pyReplace angD angC (pyReplace dotD dotC donor)) = _
  rw [replace_pair_eq_namePass, subUUID_namePass_eq_spec]

/-! ## Counting identifier matches -/

theorem uuidMatchesGo_skip :
    ∀ (k : Nat) (s : List Char), uuidMatchesGo k s = uuidMatchesGo 0 (s.drop k) := by
  intro k
  induction k with
  | zero => intro s; simp
  | succ k ih =>
    intro s
    cases s with
    | nil => simp [uuidMatchesGo]
    | cons c t => simpa [uuidMatchesGo] using ih t

theorem uuidMatches_nil : uuidMatches [] = [] := rfl

theorem uuidMatches_cons_some {c : Char} {t r : List Char}
    (h : matchUUID (c :: t) = some r) :
    uuidMatches (c :: t) = (c :: t).take 36 :: uuidMatches r := by
  have h0 : uuidMatchesGo 0 (c :: t) =
      match matchUUID (c :: t) with
      | some _ => (c :: t).take 36 :: uuidMatchesGo 35 t
      | none => uuidMatchesGo 0 t := rfl
  rw [h] at h0
  show uuidMatchesGo 0 (c :: t) = _
  rw [h0, uuidMatchesGo_skip, matchUUID_cons_drop h]
  rfl

theorem uuidMatches_cons_none {c : Char} {t : List Char}
    (h : matchUUID (c :: t) = none) :
    uuidMatches (c :: t) = uuidMatches t := by
  have h0 : uuidMatchesGo 0 (c :: t) =
      match matchUUID (c :: t) with
      | some _ => (c :: t).take 36 :: uuidMatchesGo 35 t
      | none => uuidMatchesGo 0 t := rfl
  rw [h] at h0
  exact h0

theorem uuidMatches_append_nonhex (X : List Char) :
    ∀ pre : List Char, (∀ c ∈ pre, isHexDigit c = false) →
      uuidMatches (pre ++ X) = uuidMatches X := by
  intro pre
  induction pre with
  | nil => intro _; simp
  | cons c pre ih =>
    intro h
    rw [List.cons_append,
      uuidMatches_cons_none (matchUUID_cons_nonhex _ (h c (by simp))),
      ih (fun d hd => h d (by simp [hd]))]

theorem sameClass_of_hex {c d : Char} (hc : isHexDigit c = true) (hd : isHexDigit d = true) :
    sameClass c d = true := by
  simp only [sameClass, hc, hd, Bool.and_eq_true, decide_eq_true_eq]
  refine ⟨trivial, ?_, ?_⟩
  · rintro rfl; exact absurd hc (by decide)
  · rintro rfl; exact absurd hd (by decide)

theorem hexlist_classEq : ∀ {a b : List Char}, a.length = b.length →
    (∀ c ∈ a, isHexDigit c) → (∀ c ∈ b, isHexDigit c) → classEq a b = true := by
  intro a
  induction a with
  | nil =>
    intro b hlen _ _
    cases b with
    | nil => rfl
    | cons d ds => simp at hlen
  | cons c cs ih =>
    intro b hlen ha hb
    cases b with
    | nil => simp at hlen
    | cons d ds =>
      simp only [classEq, Bool.and_eq_true]
      refine ⟨sameClass_of_hex (ha c (by simp)) (hb d (by simp)), ?_⟩
      exact ih (by simpa using hlen) (fun e he => ha e (by simp [he]))
        (fun e he => hb e (by simp [he]))

theorem isUUID_classEq {u v : List Char} (hu : isUUID u) (hv : isUUID v) :
    classEq u v = true := by
  obtain ⟨a1, a2, a3, a4, a5, hs, l1, l2, l3, l4, l5, x1, x2, x3, x4, x5⟩ :=
    matchUUID_some_decomp (hu : matchUUID u = some [])
  obtain ⟨b1, b2, b3, b4, b5, ht, m1, m2, m3, m4, m5, y1, y2, y3, y4, y5⟩ :=
    matchUUID_some_decomp (hv : matchUUID v = some [])
  rw [List.append_nil] at hs ht
  rw [hs, ht, mkUUID, mkUUID]
  refine classEq_append (hexlist_classEq (by omega) x1 y1) ?_
  simp only [classEq, Bool.and_eq_true]
  refine ⟨sameClass_refl _, classEq_append (hexlist_classEq (by omega) x2 y2) ?_⟩
  simp only [classEq, Bool.and_eq_true]
  refine ⟨sameClass_refl _, classEq_append (hexlist_classEq (by omega) x3 y3) ?_⟩
  simp only [classEq, Bool.and_eq_true]
  refine ⟨sameClass_refl _, classEq_append (hexlist_classEq (by omega) x4 y4) ?_⟩
  simp only [classEq, Bool.and_eq_true]
  exact ⟨sameClass_refl _, hexlist_classEq (by omega) x5 y5⟩

/-- The simultaneous pass produces a class-equal string whenever the fresh
identifiers are identifier-shaped. -/
theorem spec_classEq (g : Nat → List Char) (hg : ∀ k, isUUID (g k)) :
    ∀ (n : Nat) (s : List Char), classEq s (specSimultaneous g n s) = true := by
  suffices H : ∀ (m n : Nat) (s : List Char), s.length = m →
      classEq s (specSimultaneous g n s) = true by
    intro n s; exact H s.length n s rfl
  intro m
  induction m using Nat.strong_induction_on with
  | _ m ih =>
  intro n s hm
  have IH : ∀ (n' : Nat) (s' : List Char), s'.length < s.length →
      classEq s' (specSimultaneous g n' s') = true := by
    intro n' s' h
    exact ih s'.length (hm ▸ h) n' s' rfl
  cases s with
  | nil => rfl
  | cons c t =>
    by_cases hd : dotD.isPrefixOf (c :: t)
    · obtain ⟨rest, hrest⟩ := List.isPrefixOf_iff_prefix.mp hd
      have hrest8 : rest = t.drop 8 := by
        rw [dotD_cons, List.cons_append] at hrest
        injection hrest with h1 h2
        rw [← h2, List.drop_left' (by decide : (DONOR_NAME.data).length = 8)]
      have hrlen : rest.length < (c :: t).length := by
        rw [hrest8]
        simp only [List.length_drop, List.length_cons]
        omega
      rw [spec_cons_dot g n hd, ← hrest8, ← hrest]
      exact classEq_append (by decide) (IH n rest hrlen)
    · by_cases hgp : angD.isPrefixOf (c :: t)
      · obtain ⟨rest, hrest⟩ := List.isPrefixOf_iff_prefix.mp hgp
        have hrest9 : rest = t.drop 9 := by
          rw [angD_cons, List.cons_append] at hrest
          injection hrest with h1 h2
          rw [← h2, List.drop_left' (by decide : (DONOR_NAME.data ++ ['<']).length = 9)]
        have hrlen : rest.length < (c :: t).length := by
          rw [hrest9]
          simp only [List.length_drop, List.length_cons]
          omega
        rw [spec_cons_ang g n hd hgp, ← hrest9, ← hrest]
        exact classEq_append (by decide) (IH n rest hrlen)
      · cases hmtc : matchUUID (c :: t) with
        | some r =>
          obtain ⟨u, hu, hulen, huid, -⟩ := matchUUID_some_split hmtc
          have hrlen : r.length < (c :: t).length := by
            have hlu := congrArg List.length hu
            simp only [List.length_append, List.length_cons] at hlu
            rw [hulen] at hlu
            simp only [List.length_cons]
            omega
          rw [spec_cons_some g n hd hgp hmtc, hu]
          exact classEq_append (isUUID_classEq huid (hg n)) (IH (n + 1) r hrlen)
        | none =>
          rw [spec_cons_none g n hd hgp hmtc]
          simp only [classEq, Bool.and_eq_true]
          exact ⟨sameClass_refl c, IH n t (Nat.lt_succ_self t.length)⟩

/-- The identifier matches of the simultaneous pass's output are exactly the
fresh identifiers `g n, g (n+1), ...`, one per match of the input. -/
theorem uuidMatches_spec (g : Nat → List Char) (hg : ∀ k, isUUID (g k)) :
    ∀ (n : Nat) (s : List Char),
      uuidMatches (specSimultaneous g n s) = (List.range' n (uuidCount s)).map g := by
  suffices H : ∀ (m n : Nat) (s : List Char), s.length = m →
      uuidMatches (specSimultaneous g n s) = (List.range' n (uuidCount s)).map g by
    intro n s; exact H s.length n s rfl
  intro m
  induction m using Nat.strong_induction_on with
  | _ m ih =>
  intro n s hm
  have IH : ∀ (n' : Nat) (s' : List Char), s'.length < s.length →
      uuidMatches (specSimultaneous g n' s') = (List.range' n' (uuidCount s')).map g := by
    intro n' s' h
    exact ih s'.length (hm ▸ h) n' s' rfl
  cases s with
  | nil => rfl
  | cons c t =>
    by_cases hd : dotD.isPrefixOf (c :: t)
    · obtain ⟨rest, hrest⟩ := List.isPrefixOf_iff_prefix.mp hd
      have hrest8 : rest = t.drop 8 := by
        rw [dotD_cons, List.cons_append] at hrest
        injection hrest with h1 h2
        rw [← h2, List.drop_left' (by decide : (DONOR_NAME.data).length = 8)]
      have hrlen : rest.length < (c :: t).length := by
        rw [hrest8]
        simp only [List.length_drop, List.length_cons]
        omega
      have hcount : uuidCount (c :: t) = uuidCount rest := by
        unfold uuidCount
        rw [← hrest, uuidMatches_append_nonhex rest dotD (by decide)]
      rw [spec_cons_dot g n hd, uuidMatches_append_nonhex _ dotC (by decide),
        ← hrest8, IH n rest hrlen, hcount]
    · by_cases hgp : angD.isPrefixOf (c :: t)
      · obtain ⟨rest, hrest⟩ := List.isPrefixOf_iff_prefix.mp hgp
        have hrest9 : rest = t.drop 9 := by
          rw [angD_cons, List.cons_append] at hrest
          injection hrest with h1 h2
          rw [← h2, List.drop_left' (by decide : (DONOR_NAME.data ++ ['<']).length = 9)]
        have hrlen : rest.length < (c :: t).length := by
          rw [hrest9]
          simp only [List.length_drop, List.length_cons]
          omega
        have hcount : uuidCount (c :: t) = uuidCount rest := by
          unfold uuidCount
          rw [← hrest, uuidMatches_append_nonhex rest angD (by decide)]
        rw [spec_cons_ang g n hd hgp, uuidMatches_append_nonhex _ angC (by decide),
          ← hrest9, IH n rest hrlen, hcount]
      · cases hmtc : matchUUID (c :: t) with
        | some r =>
          obtain ⟨u, hu, hulen, huid, -⟩ := matchUUID_some_split hmtc
          have hrlen : r.length < (c :: t).length := by
            have hlu := congrArg List.length hu
            simp only [List.length_append, List.length_cons] at hlu
            rw [hulen] at hlu
            simp only [List.length_cons]
            omega
          have hcount : uuidCount (c :: t) = uuidCount r + 1 := by
            unfold uuidCount
            rw [uuidMatches_cons_some hmtc]
            simp
          have hgn : isUUID (g n) := hg n
          have hmg : matchUUID (g n ++ specSimultaneous g (n + 1) r) =
              some (specSimultaneous g (n + 1) r) := matchUUID_append _ hgn
          have hgtake : (g n ++ specSimultaneous g (n + 1) r).take 36 = g n :=
            List.take_left' (isUUID_length hgn)
          cases hgn' : g n with
          | nil =>
            exfalso
            have := isUUID_length hgn
            rw [hgn'] at this
            simp at this
          | cons e es =>
            rw [spec_cons_some g n hd hgp hmtc, hgn', List.cons_append,
              uuidMatches_cons_some (by rw [← List.cons_append, ← hgn']; exact hmg),
              ← List.cons_append, ← hgn', hgtake, IH (n + 1) r hrlen, hcount,
              List.range'_succ, List.map_cons]
        | none =>
          have hce : classEq (c :: t) (c :: specSimultaneous g n t) = true := by
            simp only [classEq, Bool.and_eq_true]
            exact ⟨sameClass_refl c, spec_classEq g hg n t⟩
          have hmn : matchUUID (c :: specSimultaneous g n t) = none :=
            matchUUID_classEq_none hce hmtc
          have hcount : uuidCount (c :: t) = uuidCount t := by
            unfold uuidCount
            rw [uuidMatches_cons_none hmtc]
          rw [spec_cons_none g n hd hgp hmtc, uuidMatches_cons_none hmn,
            IH n t (Nat.lt_succ_self t.length), hcount]

/-! ## Substring searching helpers -/

/-- Whether `pat` occurs as a contiguous substring of `s`. -/
def containsSub (pat : List Char) : List Char → Bool
  | [] => pat.isPrefixOf ([] : List Char)
  | c :: t => pat.isPrefixOf (c :: t) || containsSub pat t

/-- Index of the first occurrence of `pat` in `s`, if any. -/
def firstIdx (pat : List Char) : List Char → Option Nat
  | [] => if pat.isPrefixOf ([] : List Char) then some 0 else none
  | c :: t => if pat.isPrefixOf (c :: t) then some 0 else (firstIdx pat t).map (· + 1)

/-- Index of the last occurrence of `pat` in `s`, if any. -/
def lastIdx (pat : List Char) : List Char → Option Nat
  | [] => if pat.isPrefixOf ([] : List Char) then some 0 else none
  | c :: t =>
    match lastIdx pat t with
    | some i => some (i + 1)
    | none => if pat.isPrefixOf (c :: t) then some 0 else none

/-- Python's `\s` class, restricted to the ASCII whitespace characters that
occur in these XML artifacts (Python additionally accepts some Unicode
whitespace, which never appears here). -/
def isPySpace (c : Char) : Bool :=
  c = ' ' || c = '\t' || c = '\n' || c = '\r' || c = '\x0B' || c = '\x0C'

/-- Rest of the string after the first occurrence of `pat`: the effect of a
lazy `[\s\S]*?` followed by the literal `pat`. -/
def scanThrough (pat : List Char) : List Char → Option (List Char)
  | [] => none
  | c :: t =>
    if pat.isPrefixOf (c :: t) then some ((c :: t).drop pat.length)
    else scanThrough pat t

/-- `"</xr:name>"`. -/
def nameTagClose : List Char := "</xr:name>".data
/-- `"<xr:Metadata>"` (13 characters). -/
def metaOpen : List Char := "<xr:Metadata>".data
/-- `"</xr:Metadata>"` (14 characters). -/
def metaClose : List Char := "</xr:Metadata>".data
/-- `"<cfg:Catalog>"` (13 characters). -/
def catOpen : List Char := "<cfg:Catalog>".data
/-- `"</cfg:Catalog>"` (14 characters). -/
def catClose : List Char := "</cfg:Catalog>".data
/-- `"<cfg:Document>"` (14 characters). -/
def docOpen : List Char := "<cfg:Document>".data
/-- `"</cfg:Document>"` (15 characters). -/
def docClose : List Char := "</cfg:Document>".data
/-- `"<xr:name>Catalog."`, the name prefix of the block pattern on line 93. -/
def nameCatPre : List Char := "<xr:name>Catalog.".data
/-- `"<xr:name>Document."`, the name prefix of the block pattern on line 99. -/
def nameDocPre : List Char := "<xr:name>Document.".data

/-- Rest of the string after the first position where
`pre` `[^<]+` `</xr:name>` matches: the lazy scan to a name tag whose content
starts with `pre` (a type prefix such as `"<xr:name>Catalog."`), continues
with at least one non-`'<'` character and closes with `</xr:name>`.  A
failed attempt resumes one character later, exactly as the backtracking lazy
`[\s\S]*?` does. -/
def scanNameTag (pre : List Char) : List Char → Option (List Char)
  | [] => none
  | c :: t =>
    if pre.isPrefixOf (c :: t) then
      let r := (c :: t).drop pre.length
      let run := r.takeWhile (fun d => d ≠ '<')
      if 1 ≤ run.length ∧ nameTagClose.isPrefixOf (r.drop run.length) then
        some (r.drop (run.length + 10))
      else scanNameTag pre t
    else scanNameTag pre t

/-! ## Cleanup step (`remove_existing_traces`, lines 24-42) -/

/-- One match attempt of the `ConfigDumpInfo.xml` cleanup pattern
`'<xr:Metadata>[\s\S]*?<xr:name>{ref}</xr:name>[\s\S]*?</xr:Metadata>\s*\n?'`
(line 30) at the current position: the position must carry the literal
`<xr:Metadata>`; the lazy gaps reach the first occurrence of the name
literal and then the first `</xr:Metadata>` after it (the greedy `\s*`
then swallows all following whitespace and `\n?` is subsumed by it).
Returns the rest of the string after the match. -/
def dumpCleanMatch (nameLit : List Char) (s : List Char) : Option (List Char) :=
  if metaOpen.isPrefixOf s then
    ((scanThrough nameLit (s.drop 13)).bind (scanThrough metaClose)).map
      (fun rest => rest.dropWhile isPySpace)
  else none

/-- `pattern.sub('', content)` for the dump cleanup pattern: leftmost,
non-overlapping matches are removed. -/
def cleanupDumpGo (nameLit : List Char) : Nat → List Char → List Char
  | _, [] => []
  | k + 1, _ :: t => cleanupDumpGo nameLit k t
  | 0, c :: t =>
    match dumpCleanMatch nameLit (c :: t) with
    | some rest => cleanupDumpGo nameLit ((c :: t).length - rest.length - 1) t
    | none => c :: cleanupDumpGo nameLit 0 t

/-- The `ConfigDumpInfo.xml` rewrite performed by the cleanup step. -/
def cleanup_dump_content (cn : String) (content : List Char) : List Char :=
  cleanupDumpGo (("<xr:name>" ++ DONOR_TYPE ++ "." ++ cn ++ "</xr:name>").data) 0 content

/-- The full line literal removed from `Configuration.xml` by the cleanup
pattern `'.*<cfg:Catalog>{ref}</cfg:Catalog>.*\n?'` (line 29). -/
def cfgCleanLit (cn : String) : List Char :=
  ("<cfg:Catalog>" ++ DONOR_TYPE ++ "." ++ cn ++ "</cfg:Catalog>").data

/-- `pattern.sub('', content)` for the `Configuration.xml` cleanup pattern:
since `.` does not match a newline, each match is exactly one whole line
containing the tag literal, together with its trailing newline; the
substitution therefore deletes every such line. -/
def cleanupCfgGo (lit : List Char) : Nat → List Char → List Char
  | _, [] => []
  | k + 1, _ :: t => cleanupCfgGo lit k t
  | 0, c :: t =>
    let L := (c :: t).takeWhile (fun d => d ≠ '\n')
    let e := if L.length < (c :: t).length then L.length + 1 else L.length
    (if containsSub lit L then [] else (c :: t).take e) ++ cleanupCfgGo lit (e - 1) t

/-- The `Configuration.xml` rewrite performed by the cleanup step. -/
def cleanup_config_content (cn : String) (content : List Char) : List Char :=
  cleanupCfgGo (cfgCleanLit cn) 0 content

/-! ## Integrate step (`integrate_into_config`, lines 61-106) -/

/-- One match attempt of `(.*?<cfg:Catalog>.*</cfg:Catalog>)` (line 71) at
the current position: all of it must lie within the current line (`.` does
not cross newlines); the lazy prefix makes the opening literal the first
one at or after the position, and the greedy middle makes the closing
literal the last one on the line that starts at or after the opening
literal's end.  Returns the number of characters consumed. -/
def cfgMatchAt (s : List Char) : Option Nat :=
  match firstIdx catOpen (s.takeWhile (fun d => d ≠ '\n')) with
  | none => none
  | some j =>
    match lastIdx catClose ((s.takeWhile (fun d => d ≠ '\n')).drop (j + 13)) with
    | none => none
    | some k => some (j + 13 + k + 14)

/-- `re.findall` for the catalog-line pattern: leftmost, non-overlapping
matches collected in order. -/
def cfgScanGo : Nat → List Char → List (List Char)
  | _, [] => []
  | k + 1, _ :: t => cfgScanGo k t
  | 0, c :: t =>
    match cfgMatchAt (c :: t) with
    | some e => (c :: t).take e :: cfgScanGo (e - 1) t
    | none => cfgScanGo 0 t

def cfgScan (s : List Char) : List (List Char) := cfgScanGo 0 s

/-- One match attempt of `(\s*<cfg:Document>.*</cfg:Document>)` (line 78) at
the current position: the greedy `\s*` must reach the opening literal
through whitespace only (its backtracked shorter runs would place the
literal's `'<'` on a whitespace character), then the last closing literal
on the opening literal's line.  Returns the matched string. -/
def cfgDocMatchAt (s : List Char) : Option (List Char) :=
  let w := s.takeWhile isPySpace
  let r := s.drop w.length
  if docOpen.isPrefixOf r then
    let r2 := r.drop 14
    let L := r2.takeWhile (fun d => d ≠ '\n')
    match lastIdx docClose L with
    | some k => some (w ++ docOpen ++ r2.take (k + 15))
    | none => none
  else none

/-- `re.search` for the document-line pattern: the leftmost match. -/
def cfgDocFindGo : List Char → Option (List Char)
  | [] => none
  | c :: t =>
    match cfgDocMatchAt (c :: t) with
    | some m => some m
    | none => cfgDocFindGo t

/-- One match attempt of
`<xr:Metadata>[\s\S]*?<xr:name>{Type}\.[^<]+</xr:name>[\s\S]*?</xr:Metadata>`
(lines 93 and 99) at the current position.  Returns the rest after the
match. -/
def dumpBlockMatchAt (pre : List Char) (s : List Char) : Option (List Char) :=
  if metaOpen.isPrefixOf s then
    (scanNameTag pre (s.drop 13)).bind (scanThrough metaClose)
  else none

/-- `re.findall` for the catalog metadata-block pattern (line 93). -/
def dumpCatScanGo : Nat → List Char → List (List Char)
  | _, [] => []
  | k + 1, _ :: t => dumpCatScanGo k t
  | 0, c :: t =>
    match dumpBlockMatchAt nameCatPre (c :: t) with
    | some rest =>
      (c :: t).take ((c :: t).length - rest.length) ::
        dumpCatScanGo ((c :: t).length - rest.length - 1) t
    | none => dumpCatScanGo 0 t

def dumpCatScan (s : List Char) : List (List Char) := dumpCatScanGo 0 s

/-- `re.search` for the document metadata-block pattern (line 99). -/
def dumpDocFindGo : List Char → Option (List Char)
  | [] => none
  | c :: t =>
    match dumpBlockMatchAt nameDocPre (c :: t) with
    | some rest => some ((c :: t).take ((c :: t).length - rest.length))
    | none => dumpDocFindGo t

/-- `new_line` of line 68. -/
def new_line (cn : String) : List Char :=
  ("\t\t\t<cfg:Catalog>" ++ DONOR_TYPE ++ "." ++ cn ++ "</cfg:Catalog>").data

/-- `new_block` of line 91, with the freshly generated identifier spliced
in. -/
def new_block (cn : String) (guid : List Char) : List Char :=
  ("\t\t<xr:Metadata>\n\t\t\t<xr:name>" ++ DONOR_TYPE ++ "." ++ cn
      ++ "</xr:name>\n\t\t\t<xr:id>").data
    ++ guid ++ ("</xr:id>\n\t\t</xr:Metadata>").data

/-- The `Configuration.xml` rewrite of the integrate step (lines 66-86). -/
def integrate_config_content (cn : String) (content : List Char) : List Char :=
  match cfgScan content with
  | m :: ms =>
    let last := (m :: ms).getLastD []
    pyReplace last (last ++ '\n' :: new_line cn) content
  | [] =>
    match cfgDocFindGo content with
    | some m => pyReplace m (new_line cn ++ '\n' :: m) content
    | none =>
      pyReplace ("\t\t</cfg:ChildObjects>").data
        (new_line cn ++ '\n' :: ("\t\t</cfg:ChildObjects>").data) content

/-- The `ConfigDumpInfo.xml` rewrite of the integrate step (lines 89-106). -/
def integrate_dump_content (cn : String) (guid : List Char) (content : List Char) :
    List Char :=
  let nb := new_block cn guid
  match dumpCatScan content with
  | m :: ms =>
    let last := (m :: ms).getLastD []
    pyReplace last (last ++ '\n' :: nb) content
  | [] =>
    match dumpDocFindGo content with
    | some m => pyReplace m (nb ++ '\n' :: m) content
    | none =>
      pyReplace ("\t</xr:ChildObjects>").data
        (nb ++ '\n' :: ("\t</xr:ChildObjects>").data) content

/-! ## File-system state and the full run -/

/-- The files the program touches: the two index files and the
`Catalogs/<name>.xml` definition files, keyed by name.  `none` models an
absent file. -/
structure St where
  config : Option (List Char)
  dump : Option (List Char)
  catalogs : String → Option (List Char)

/-- Observable write effects of the cleanup step. -/
inductive Ev where
  | writeConfig (content : List Char)
  | writeDump (content : List Char)
  | deleteCloneFile
deriving DecidableEq

/-- Function update for the catalogs directory. -/
def upd (f : String → Option (List Char)) (k : String) (v : Option (List Char)) :
    String → Option (List Char) :=
  fun k' => if k' = k then v else f k'

/-- `remove_existing_traces` (lines 24-42): for each present index file,
substitute the cleanup pattern and rewrite the file only when the content
changed; delete the clone definition file if present.  Absent files are
skipped; the step cannot fail. -/
def remove_existing_traces (cn : String) (st : St) : St × List Ev :=
  let cfgstep : Option (List Char) × List Ev :=
    match st.config with
    | none => (none, [])
    | some c =>
      let c2 := cleanup_config_content cn c
      (some c2, if c2 ≠ c then [Ev.writeConfig c2] else [])
  let dumpstep : Option (List Char) × List Ev :=
    match st.dump with
    | none => (none, [])
    | some d =>
      let d2 := cleanup_dump_content cn d
      (some d2, if d2 ≠ d then [Ev.writeDump d2] else [])
  let catstep : (String → Option (List Char)) × List Ev :=
    match st.catalogs cn with
    | none => (st.catalogs, [])
    | some _ => (upd st.catalogs cn none, [Ev.deleteCloneFile])
  (⟨cfgstep.1, dumpstep.1, catstep.1⟩, cfgstep.2 ++ dumpstep.2 ++ catstep.2)

inductive RunErr where
  | fileNotFound
deriving DecidableEq

/-- Number of fresh identifiers consumed by the clone step. -/
def clone_guid_count (dn cn : String) (donor : List Char) : Nat :=
  uuidCount (pyReplace (anglePat dn) (anglePat cn) (pyReplace (dotPat dn) (dotPat cn) donor))

/-- The `__main__` sequence (lines 108-116): existence check for
`Configuration.xml`, then cleanup, clone and integrate, stopping at the
first `FileNotFoundError`.  Returns the state reached, the next fresh
identifier index, and the error if any. -/
def runMainP (dn cn : String) (g : Nat → List Char) (n : Nat) (st : St) :
    St × Nat × Option RunErr :=
  match st.config with
  | none => (st, n, some RunErr.fileNotFound)
  | some _ =>
    let st1 := (remove_existing_traces cn st).1
    match st1.catalogs dn with
    | none => (st1, n, some RunErr.fileNotFound)
    | some donor =>
      let st2 : St :=
        { st1 with catalogs := upd st1.catalogs cn (some (clone_content dn cn g n donor)) }
      let n1 := n + clone_guid_count dn cn donor
      match st2.config with
      | none => (st2, n1, some RunErr.fileNotFound)
      | some c =>
        let st3 : St := { st2 with config := some (integrate_config_content cn c) }
        match st3.dump with
        | none => (st3, n1, some RunErr.fileNotFound)
        | some d =>
          ({ st3 with dump := some (integrate_dump_content cn (g n1) d) }, n1 + 1, none)

/-- The run with the configured constants. -/
def runMain (g : Nat → List Char) (n : Nat) (st : St) : St × Nat × Option RunErr :=
  runMainP DONOR_NAME CLONE_NAME g n st

example :
    cleanupDumpGo ("<xr:name>Catalog.B</xr:name>").data 0
      "<H>\n<xr:Metadata>\n<xr:name>Catalog.A</xr:name>\n<xr:id>1</xr:id>\n</xr:Metadata>\n<xr:Metadata>\n<xr:name>Catalog.B</xr:name>\n<xr:id>2</xr:id>\n</xr:Metadata>\n\t</T>".data
      = "<H>\n</T>".data := by decide

example :
    cleanupCfgGo "<cfg:Catalog>Catalog.B</cfg:Catalog>".data 0
      "x\n\t<cfg:Catalog>Catalog.B</cfg:Catalog>\ny\n\t<cfg:Catalog>Catalog.B</cfg:Catalog>tail\nz".data
      = "x\ny\nz".data := by decide

example :
    cfgScan "a\n p<cfg:Catalog>X</cfg:Catalog>q<cfg:Catalog>Y</cfg:Catalog>r\nb<cfg:Catalog>Z</cfg:Catalog>\n".data
      = [" p<cfg:Catalog>X</cfg:Catalog>q<cfg:Catalog>Y</cfg:Catalog>".data,
         "b<cfg:Catalog>Z</cfg:Catalog>".data] := by decide

example :
    cfgDocFindGo "head\n\t\t<cfg:Document>D</cfg:Document>\nrest".data
      = some "\n\t\t<cfg:Document>D</cfg:Document>".data := by decide

example :
    dumpCatScan "<xr:Metadata>\n<xr:name>Document.A</xr:name>\n<xr:id>1</xr:id>\n</xr:Metadata>\n<xr:Metadata>\n<xr:name>Catalog.B</xr:name>\n<xr:id>2</xr:id>\n</xr:Metadata>".data
      = ["<xr:Metadata>\n<xr:name>Document.A</xr:name>\n<xr:id>1</xr:id>\n</xr:Metadata>\n<xr:Metadata>\n<xr:name>Catalog.B</xr:name>\n<xr:id>2</xr:id>\n</xr:Metadata>".data] := by
  decide

example :
    dumpDocFindGo "<xr:Metadata>\n<xr:name>Enum.E</xr:name>\n<xr:id>1</xr:id>\n</xr:Metadata>\n<xr:Metadata>\n<xr:name>Document.D</xr:name>\n<xr:id>2</xr:id>\n</xr:Metadata>".data
      = some "<xr:Metadata>\n<xr:name>Enum.E</xr:name>\n<xr:id>1</xr:id>\n</xr:Metadata>\n<xr:Metadata>\n<xr:name>Document.D</xr:name>\n<xr:id>2</xr:id>\n</xr:Metadata>".data := by
  decide

/-! ## Claim C1 -/

/-- C1: for every donor file text, the clone step's output is byte-for-byte
the donor text except for the specified substitutions — every (leftmost,
non-overlapping) occurrence of `".Предметы"` becomes `".УТО_Тест"`, every
occurrence of `">Предметы<"` becomes `">УТО_Тест<"`, and every
canonical-identifier-shaped substring is replaced by the next freshly
generated identifier — and no other byte changes, regardless of whether the
input is well-formed XML.  Formally: the sequential three-pass code output
equals the single simultaneous substitution pass `specSimultaneous`, which
copies every byte outside a matched pattern unchanged. -/
theorem C1_clone_output_is_donor_with_substitutions (g : Nat → List Char) (n : Nat)
    (donor : List Char) :
    clone_content DONOR_NAME CLONE_NAME g n donor = specSimultaneous g n donor :=
  clone_content_eq_spec g n donor

/-! ## Claim C2 -/

/-- C2: every canonical-identifier-shaped substring of the donor (leftmost,
non-overlapping, case-insensitive 8-4-4-4-12 hex format) is replaced by an
independently freshly generated identifier: the identifier matches of the
clone file are exactly `g n, g (n+1), ...`, one per match of the donor, so
the match count is preserved, and — as generation is per-match, not
memoized — all identifiers in the clone are pairwise distinct (in
particular, identical repeated identifiers in the source become different
values), provided the generated values are identifier-shaped and the
consumed stretch of the stream has no collisions. -/
theorem C2_fresh_identifier_replacement (g : Nat → List Char) (n : Nat) (donor : List Char)
    (hg : ∀ k, isUUID (g k))
    (hinj : ∀ i j, n ≤ i → i < n + uuidCount donor → n ≤ j → j < n + uuidCount donor →
      g i = g j → i = j) :
    uuidMatches (clone_content DONOR_NAME CLONE_NAME g n donor)
        = (List.range' n (uuidCount donor)).map g ∧
    uuidCount (clone_content DONOR_NAME CLONE_NAME g n donor) = uuidCount donor ∧
    (uuidMatches (clone_content DONOR_NAME CLONE_NAME g n donor)).Nodup := by
  have h1 : uuidMatches (clone_content DONOR_NAME CLONE_NAME g n donor)
      = (List.range' n (uuidCount donor)).map g := by
    rw [clone_content_eq_spec]
    exact uuidMatches_spec g hg n donor
  refine ⟨h1, ?_, ?_⟩
  · show (uuidMatches _).length = _
    rw [h1, List.length_map, List.length_range']
  · rw [h1]
    refine List.Nodup.map_on ?_ ?_
    · intro x hx y hy hxy
      rw [List.mem_range'_1] at hx hy
      exact hinj x y hx.1 hx.2 hy.1 hy.2 hxy
    · exact List.nodup_range' n (uuidCount donor)

/-- Donor text for the C2 witness: the same identifier twice. -/
def donorW : List Char :=
  "<id>12345678-1234-1234-1234-123456789abc</id><id>12345678-1234-1234-1234-123456789abc</id>".data

/-- Fresh-identifier stream for the C2 witness. -/
def gW : Nat → List Char := fun k =>
  if k % 2 = 0 then "aaaaaaaa-0000-0000-0000-000000000000".data
  else "bbbbbbbb-1111-1111-1111-111111111111".data

theorem C2_fresh_identifier_replacement_witness :
    uuidMatches (clone_content DONOR_NAME CLONE_NAME gW 0 donorW)
        = (List.range' 0 (uuidCount donorW)).map gW ∧
    uuidCount (clone_content DONOR_NAME CLONE_NAME gW 0 donorW) = uuidCount donorW ∧
    (uuidMatches (clone_content DONOR_NAME CLONE_NAME gW 0 donorW)).Nodup := by
  refine C2_fresh_identifier_replacement gW 0 donorW ?_ ?_
  · intro k
    by_cases h : k % 2 = 0
    · simp only [gW, if_pos h]; decide
    · simp only [gW, if_neg h]; decide
  · intro i j h1 h2 h3 h4 heq
    have hcnt : uuidCount donorW = 2 := by decide
    rw [hcnt] at h2 h4
    interval_cases i <;> interval_cases j <;> first
      | rfl
      | (revert heq; decide)

/-! ## Cleanup frame lemma -/

/-- The cleanup step only ever touches the clone's entry of the catalogs
directory. -/
theorem remove_traces_catalogs (cn : String) (st : St) (k : String) :
    (remove_existing_traces cn st).1.catalogs k =
      if k = cn then none else st.catalogs k := by
  unfold remove_existing_traces
  cases hcc : st.catalogs cn with
  | none =>
    simp only [hcc]
    by_cases hk : k = cn
    · rw [if_pos hk, hk, hcc]
    · rw [if_neg hk]
  | some f =>
    simp only [hcc, upd]

/-! ## Claim C8 -/

/-- C8 counterexample input: the donor definition file is absent, but
`Configuration.xml` still carries a stale clone reference line, so the
cleanup step rewrites it before the clone step raises. -/
def config8 : List Char := "\t\t\t<cfg:Catalog>Catalog.УТО_Тест</cfg:Catalog>\nrest\n".data

def st8 : St :=
  { config := some config8, dump := none, catalogs := fun _ => none }

/-- Identifier stream used by the concrete run evaluations. -/
def g0 : Nat → List Char := fun _ => "0a0a0a0a-0a0a-0a0a-0a0a-0a0a0a0a0a0a".data

/-- C8 as stated is false: with the donor definition file absent, the run
does fail with a file-not-found condition, but a file (here
`Configuration.xml`, rewritten by the preceding cleanup step) has already
been written when it is raised. -/
theorem C8_counterexample :
    (runMain g0 0 st8).2.2 = some RunErr.fileNotFound ∧
    (runMain g0 0 st8).1.config ≠ st8.config := by decide

/-- C8 amended: if the donor definition file does not exist (and
`Configuration.xml` is present, so the run gets past the initial existence
check), the run fails with a file-not-found condition raised before the
clone or integrate steps write any file; the final state is exactly the one
the cleanup step left, which may already differ from the initial state. -/
theorem C8_amended_donor_missing (g : Nat → List Char) (n : Nat) (st : St) (c : List Char)
    (hc : st.config = some c) (hd : st.catalogs DONOR_NAME = none) :
    runMain g n st = ((remove_existing_traces CLONE_NAME st).1, n, some RunErr.fileNotFound) := by
  have hcat : (remove_existing_traces CLONE_NAME st).1.catalogs DONOR_NAME = none := by
    rw [remove_traces_catalogs, if_neg (by decide : ¬ DONOR_NAME = CLONE_NAME)]
    exact hd
  unfold runMain runMainP
  rw [hc]
  simp only [hcat]

theorem C8_amended_donor_missing_witness :
    runMain g0 0 st8 = ((remove_existing_traces CLONE_NAME st8).1, 0, some RunErr.fileNotFound) :=
  C8_amended_donor_missing g0 0 st8 config8 rfl rfl

/-! ## Claim C10 -/

/-- C10: the donor's definition file is never modified or deleted by any of
the three steps: whenever the donor and clone names differ, its directory
entry after a run equals its entry before, for every initial state. -/
theorem C10_donor_file_preserved (dn cn : String) (g : Nat → List Char) (n : Nat)
    (st : St) (h : dn ≠ cn) :
    (runMainP dn cn g n st).1.catalogs dn = st.catalogs dn := by
  unfold runMainP
  repeat' split
  all_goals (try simp [remove_traces_catalogs, upd, h])
  all_goals (repeat' split)
  all_goals (try simp [remove_traces_catalogs, upd, h])

theorem C10_donor_file_preserved_witness :
    (runMainP DONOR_NAME CLONE_NAME g0 0 st8).1.catalogs DONOR_NAME =
      st8.catalogs DONOR_NAME :=
  C10_donor_file_preserved DONOR_NAME CLONE_NAME g0 0 st8 (by decide)

/-! ## Claim C9 -/

/-- C9: the cleanup step rewrites an index file only when its content
actually changed (emitting a write with the new content exactly in that
case), leaves it untouched otherwise, and never errors on absent files: an
absent index file is skipped entirely (no write), and a nonexistent clone
definition file is skipped (no deletion).  The step is modelled as a total
function, so no error condition exists at all. -/
theorem C9_cleanup_effects (cn : String) (st : St) :
    (st.config = none → (remove_existing_traces cn st).1.config = none ∧
        ∀ x, Ev.writeConfig x ∉ (remove_existing_traces cn st).2) ∧
    (∀ c, st.config = some c →
        (remove_existing_traces cn st).1.config = some (cleanup_config_content cn c) ∧
        (cleanup_config_content cn c = c →
          ∀ x, Ev.writeConfig x ∉ (remove_existing_traces cn st).2) ∧
        (cleanup_config_content cn c ≠ c →
          Ev.writeConfig (cleanup_config_content cn c) ∈ (remove_existing_traces cn st).2)) ∧
    (st.dump = none → (remove_existing_traces cn st).1.dump = none ∧
        ∀ x, Ev.writeDump x ∉ (remove_existing_traces cn st).2) ∧
    (∀ d, st.dump = some d →
        (remove_existing_traces cn st).1.dump = some (cleanup_dump_content cn d) ∧
        (cleanup_dump_content cn d = d →
          ∀ x, Ev.writeDump x ∉ (remove_existing_traces cn st).2) ∧
        (cleanup_dump_content cn d ≠ d →
          Ev.writeDump (cleanup_dump_content cn d) ∈ (remove_existing_traces cn st).2)) ∧
    (st.catalogs cn = none → (remove_existing_traces cn st).1.catalogs = st.catalogs ∧
        Ev.deleteCloneFile ∉ (remove_existing_traces cn st).2) ∧
    (∀ f, st.catalogs cn = some f →
        (remove_existing_traces cn st).1.catalogs cn = none ∧
        Ev.deleteCloneFile ∈ (remove_existing_traces cn st).2) := by
  obtain ⟨cfg, dmp, cats⟩ := st
  refine ⟨?_, ?_, ?_, ?_, ?_, ?_⟩
  · intro h
    have hc : cfg = none := h
    subst hc
    refine ⟨rfl, ?_⟩
    intro x
    cases dmp <;> cases hcc : cats cn <;>
      simp [remove_existing_traces, hcc]
  · intro c h
    have hc : cfg = some c := h
    subst hc
    refine ⟨rfl, ?_, ?_⟩
    · intro heq x
      cases dmp <;> cases hcc : cats cn <;>
        simp [remove_existing_traces, hcc, heq]
    · intro hne
      cases dmp <;> cases hcc : cats cn <;>
        simp [remove_existing_traces, hcc, hne]
  · intro h
    have hd : dmp = none := h
    subst hd
    refine ⟨rfl, ?_⟩
    intro x
    cases cfg <;> cases hcc : cats cn <;>
      simp [remove_existing_traces, hcc]
  · intro d h
    have hd : dmp = some d := h
    subst hd
    refine ⟨rfl, ?_, ?_⟩
    · intro heq x
      cases cfg <;> cases hcc : cats cn <;>
        simp [remove_existing_traces, hcc, heq]
    · intro hne
      cases cfg <;> cases hcc : cats cn <;>
        simp [remove_existing_traces, hcc, hne]
  · intro h
    have hcc : cats cn = none := h
    refine ⟨?_, ?_⟩
    · simp [remove_existing_traces, hcc]
    · cases cfg <;> cases dmp <;>
        simp [remove_existing_traces, hcc]
  · intro f h
    have hcc : cats cn = some f := h
    refine ⟨?_, ?_⟩
    · simp [remove_existing_traces, hcc, upd]
    · cases cfg <;> cases dmp <;>
        simp [remove_existing_traces, hcc]

theorem C9_cleanup_effects_witness :
    (remove_existing_traces CLONE_NAME st8).1.config
        = some (cleanup_config_content CLONE_NAME config8) ∧
    (remove_existing_traces CLONE_NAME st8).1.dump = none ∧
    Ev.deleteCloneFile ∉ (remove_existing_traces CLONE_NAME st8).2 := by
  have h := C9_cleanup_effects CLONE_NAME st8
  exact ⟨(h.2.1 config8 rfl).1, (h.2.2.1 rfl).1, (h.2.2.2.2.1 rfl).2⟩

/-! ## Claim C6: the three insertion tiers -/

/-- Tier 1 for `Configuration.xml` (lines 72-75): insert the new reference
line after the last catalog-line match. -/
def insert_after_last_catalog (cn : String) (content : List Char) : List Char :=
  let last := (cfgScan content).getLastD []
  pyReplace last (last ++ '\n' :: new_line cn) content

/-- Tier 2 for `Configuration.xml` (lines 78-81): insert the new reference
line before the first document-line match. -/
def insert_before_first_document (cn : String) (content : List Char) : List Char :=
  match cfgDocFindGo content with
  | some m => pyReplace m (new_line cn ++ '\n' :: m) content
  | none => content

/-- Tier 3 for `Configuration.xml` (line 84): insert before the container's
closing tag literal. -/
def insert_before_container_close (cn : String) (content : List Char) : List Char :=
  pyReplace ("\t\t</cfg:ChildObjects>").data
    (new_line cn ++ '\n' :: ("\t\t</cfg:ChildObjects>").data) content

/-- Tier 1 for `ConfigDumpInfo.xml` (lines 94-97). -/
def insert_block_after_last_catalog (cn : String) (guid : List Char) (content : List Char) :
    List Char :=
  let last := (dumpCatScan content).getLastD []
  pyReplace last (last ++ '\n' :: new_block cn guid) content

/-- Tier 2 for `ConfigDumpInfo.xml` (lines 99-102). -/
def insert_block_before_first_document (cn : String) (guid : List Char) (content : List Char) :
    List Char :=
  match dumpDocFindGo content with
  | some m => pyReplace m (new_block cn guid ++ '\n' :: m) content
  | none => content

/-- Tier 3 for `ConfigDumpInfo.xml` (line 104). -/
def insert_block_before_container_close (cn : String) (guid : List Char)
    (content : List Char) : List Char :=
  pyReplace ("\t</xr:ChildObjects>").data
    (new_block cn guid ++ '\n' :: ("\t</xr:ChildObjects>").data) content

/-- C6: in the integrate step, for every input content, exactly one of the
three insertion tiers is selected, tried in priority order — after the last
catalog reference when any exists, else before the first document reference
when one exists, else before the container's closing tag — and the output
is that tier's textual edit; for `Configuration.xml` the tiers act on line
matches and for `ConfigDumpInfo.xml` on metadata-block matches. -/
theorem C6_three_tier_priority (cn : String) (guid : List Char) (c d : List Char) :
    (((cfgScan c ≠ []) ∨ (cfgScan c = [] ∧ (cfgDocFindGo c).isSome = true) ∨
        (cfgScan c = [] ∧ cfgDocFindGo c = none)) ∧
      ¬((cfgScan c ≠ []) ∧ cfgScan c = []) ∧
      ¬(((cfgDocFindGo c).isSome = true) ∧ cfgDocFindGo c = none) ∧
      (cfgScan c ≠ [] → integrate_config_content cn c = insert_after_last_catalog cn c) ∧
      (cfgScan c = [] → (cfgDocFindGo c).isSome = true →
        integrate_config_content cn c = insert_before_first_document cn c) ∧
      (cfgScan c = [] → cfgDocFindGo c = none →
        integrate_config_content cn c = insert_before_container_close cn c)) ∧
    (((dumpCatScan d ≠ []) ∨ (dumpCatScan d = [] ∧ (dumpDocFindGo d).isSome = true) ∨
        (dumpCatScan d = [] ∧ dumpDocFindGo d = none)) ∧
      ¬((dumpCatScan d ≠ []) ∧ dumpCatScan d = []) ∧
      ¬(((dumpDocFindGo d).isSome = true) ∧ dumpDocFindGo d = none) ∧
      (dumpCatScan d ≠ [] →
        integrate_dump_content cn guid d = insert_block_after_last_catalog cn guid d) ∧
      (dumpCatScan d = [] → (dumpDocFindGo d).isSome = true →
        integrate_dump_content cn guid d = insert_block_before_first_document cn guid d) ∧
      (dumpCatScan d = [] → dumpDocFindGo d = none →
        integrate_dump_content cn guid d = insert_block_before_container_close cn guid d)) := by
  constructor
  · refine ⟨?_, ?_, ?_, ?_, ?_, ?_⟩
    · by_cases hsc : cfgScan c = []
      · cases hdf : cfgDocFindGo c with
        | none => exact Or.inr (Or.inr ⟨hsc, rfl⟩)
        | some m => exact Or.inr (Or.inl ⟨hsc, rfl⟩)
      · exact Or.inl hsc
    · rintro ⟨h1, h2⟩; exact h1 h2
    · rintro ⟨h1, h2⟩; rw [h2] at h1; exact Bool.false_ne_true h1
    · intro hsc
      cases hms : cfgScan c with
      | nil => exact absurd hms hsc
      | cons m ms =>
        simp [integrate_config_content, insert_after_last_catalog, hms]
    · intro hsc hdfs
      cases hdf : cfgDocFindGo c with
      | none => rw [hdf] at hdfs; exact absurd hdfs (by simp)
      | some m =>
        simp [integrate_config_content, insert_before_first_document, hsc, hdf]
    · intro hsc hdf
      simp [integrate_config_content, insert_before_container_close, hsc, hdf]
  · refine ⟨?_, ?_, ?_, ?_, ?_, ?_⟩
    · by_cases hsc : dumpCatScan d = []
      · cases hdf : dumpDocFindGo d with
        | none => exact Or.inr (Or.inr ⟨hsc, rfl⟩)
        | some m => exact Or.inr (Or.inl ⟨hsc, rfl⟩)
      · exact Or.inl hsc
    · rintro ⟨h1, h2⟩; exact h1 h2
    · rintro ⟨h1, h2⟩; rw [h2] at h1; exact Bool.false_ne_true h1
    · intro hsc
      cases hms : dumpCatScan d with
      | nil => exact absurd hms hsc
      | cons m ms =>
        simp [integrate_dump_content, insert_block_after_last_catalog, hms]
    · intro hsc hdfs
      cases hdf : dumpDocFindGo d with
      | none => rw [hdf] at hdfs; exact absurd hdfs (by simp)
      | some m =>
        simp [integrate_dump_content, insert_block_before_first_document, hsc, hdf]
    · intro hsc hdf
      simp [integrate_dump_content, insert_block_before_container_close, hsc, hdf]

/-! ## Concrete directory states for the run-level evaluations -/

/-- A minimal `Configuration.xml` with the donor's catalog reference. -/
def config0 : List Char :=
  "\t\t<cfg:ChildObjects>\n\t\t\t<cfg:Catalog>Catalog.Предметы</cfg:Catalog>\n\t\t</cfg:ChildObjects>\n".data

/-- A minimal `ConfigDumpInfo.xml` with the donor's metadata block. -/
def dump0 : List Char :=
  "\t<xr:ChildObjects>\n\t\t<xr:Metadata>\n\t\t\t<xr:name>Catalog.Предметы</xr:name>\n\t\t\t<xr:id>11111111-2222-3333-4444-555555555555</xr:id>\n\t\t</xr:Metadata>\n\t</xr:ChildObjects>\n".data

/-- A minimal donor definition file. -/
def donor0 : List Char :=
  "<Catalog><n>Catalog.Предметы</n><v>Предметы</v></Catalog>".data

def st0 : St :=
  { config := some config0, dump := some dump0,
    catalogs := fun k => if k = DONOR_NAME then some donor0 else none }

theorem C6_three_tier_priority_witness :
    integrate_config_content CLONE_NAME config0
        = insert_after_last_catalog CLONE_NAME config0 ∧
    integrate_dump_content CLONE_NAME (g0 0) dump0
        = insert_block_after_last_catalog CLONE_NAME (g0 0) dump0 := by
  have h := C6_three_tier_priority CLONE_NAME (g0 0) config0 dump0
  exact ⟨h.1.2.2.2.1 (by decide), h.2.2.2.2.1 (by decide)⟩

/-! ## Claim C3 -/

def runOnce : St × Nat × Option RunErr := runMain g0 0 st0

def runTwice : St × Nat × Option RunErr := runMain g0 runOnce.2.1 runOnce.1

/-- C3 is false on the code: starting from a directory whose
`ConfigDumpInfo.xml` holds the donor's metadata block, both runs complete
without error, yet the second run's final `ConfigDumpInfo.xml` differs from
the first run's — the second cleanup's lazy block pattern matches from the
donor block's opening tag through the inserted clone block and deletes the
donor block too. -/
theorem C3_double_run_differs :
    runOnce.2.2 = none ∧ runTwice.2.2 = none ∧
    runTwice.1.dump ≠ runOnce.1.dump := by decide

/-! ## Claim C5 -/

/-- A dump index holding a foreign catalog block before the clone's block. -/
def dump5 : List Char :=
  "<xr:Metadata>\n\t<xr:name>Catalog.Прочие</xr:name>\n\t<xr:id>1</xr:id>\n</xr:Metadata>\n<xr:Metadata>\n\t<xr:name>Catalog.УТО_Тест</xr:name>\n\t<xr:id>2</xr:id>\n</xr:Metadata>\n".data

/-- C5 is false on the code: the cleanup pattern's leftmost match runs from
the first `<xr:Metadata>` in the file to the close of the block that holds
the clone's name, so the foreign block `Catalog.Прочие` — whose name field
does not equal the clone's fully-qualified name — is deleted as well (here
the whole content vanishes). -/
theorem C5_cleanup_removes_foreign_block :
    containsSub "<xr:name>Catalog.Прочие</xr:name>".data dump5 = true ∧
    cleanup_dump_content CLONE_NAME dump5 = [] := by decide

/-! ## Claim C7 -/

/-- A dump index with no catalog block, an enumeration block, then a
document block. -/
def dump7 : List Char :=
  "<xr:Metadata>\n\t<xr:name>Enum.Цвета</xr:name>\n\t<xr:id>1</xr:id>\n</xr:Metadata>\n<xr:Metadata>\n\t<xr:name>Document.Заказ</xr:name>\n\t<xr:id>2</xr:id>\n</xr:Metadata>\n".data

def guid7 : List Char := "99999999-8888-7777-6666-555555555555".data

/-- C7 is false on the code: with zero catalog blocks and one document
block, the document-block search matches from the first `<xr:Metadata>` in
the file (here the `Enum` block's opening tag), so the new block is
inserted before the `Enum` block — at the start of the file — and not
immediately before the first document block. -/
theorem C7_insertion_not_before_first_document :
    dumpCatScan dump7 = [] ∧
    (dumpDocFindGo dump7).isSome = true ∧
    integrate_dump_content CLONE_NAME guid7 dump7
      = new_block CLONE_NAME guid7 ++ '\n' :: dump7 ∧
    containsSub
      (new_block CLONE_NAME guid7 ++ '\n' :: "<xr:Metadata>\n\t<xr:name>Document.".data)
      (integrate_dump_content CLONE_NAME guid7 dump7) = false := by decide

/-! ## Lines of a file -/

/-- Split on `'\n'` separators; the separators are not kept and every piece
is newline-free.  An empty file is one empty line. -/
def splitNl : List Char → List (List Char)
  | [] => [[]]
  | c :: r =>
    if c = '\n' then [] :: splitNl r
    else
      match splitNl r with
      | [] => [[c]]
      | l :: ls => (c :: l) :: ls

/-- Rejoin lines with `'\n'` separators. -/
def joinNl : List (List Char) → List Char
  | [] => []
  | [l] => l
  | l :: l' :: ls => l ++ '\n' :: joinNl (l' :: ls)

theorem splitNl_ne_nil : ∀ s : List Char, splitNl s ≠ [] := by
  intro s
  cases s with
  | nil => simp [splitNl]
  | cons c r =>
    by_cases hc : c = '\n'
    · simp [splitNl, hc]
    · simp only [splitNl, if_neg hc]
      cases splitNl r <;> simp

theorem splitNl_no_newline : ∀ (s : List Char), ∀ l ∈ splitNl s, '\n' ∉ l := by
  intro s
  induction s with
  | nil => intro l hl; simp [splitNl] at hl; simp [hl]
  | cons c r ih =>
    intro l hl
    by_cases hc : c = '\n'
    · rw [splitNl, if_pos hc] at hl
      rcases List.mem_cons.mp hl with h | h
      · simp [h]
      · exact ih l h
    · rw [splitNl, if_neg hc] at hl
      cases hsr : splitNl r with
      | nil => exact absurd hsr (splitNl_ne_nil r)
      | cons l0 ls =>
        rw [hsr] at hl
        rcases List.mem_cons.mp hl with h | h
        · subst h
          intro hm
          rcases List.mem_cons.mp hm with h | h
          · exact hc h.symm
          · exact ih l0 (hsr ▸ List.mem_cons_self l0 ls) h
        · exact ih l (hsr ▸ List.mem_cons.mpr (Or.inr h))

theorem joinNl_splitNl : ∀ s : List Char, joinNl (splitNl s) = s := by
  intro s
  induction s with
  | nil => rfl
  | cons c r ih =>
    by_cases hc : c = '\n'
    · subst hc
      rw [splitNl, if_pos rfl]
      cases hsr : splitNl r with
      | nil => exact absurd hsr (splitNl_ne_nil r)
      | cons l ls =>
        rw [joinNl, List.nil_append, ← hsr, ih]
    · rw [splitNl, if_neg hc]
      cases hsr : splitNl r with
      | nil => exact absurd hsr (splitNl_ne_nil r)
      | cons l ls =>
        cases ls with
        | nil =>
          rw [joinNl]
          have hlr : joinNl (splitNl r) = r := ih
          rw [hsr, joinNl] at hlr
          rw [hlr]
        | cons l' ls' =>
          rw [joinNl]
          have : joinNl (splitNl r) = r := ih
          rw [hsr, joinNl] at this
          rw [List.cons_append, this]

theorem splitNl_no_newline_id : ∀ x : List Char, '\n' ∉ x → splitNl x = [x] := by
  intro x
  induction x with
  | nil => intro _; rfl
  | cons c r ih =>
    intro h
    have hc : c ≠ '\n' := fun hh => h (by simp [hh])
    rw [splitNl, if_neg hc, ih (fun hm => h (by simp [hm]))]

theorem splitNl_append_newline : ∀ (x y : List Char), '\n' ∉ x →
    splitNl (x ++ '\n' :: y) = x :: splitNl y := by
  intro x
  induction x with
  | nil => intro y _; simp [splitNl]
  | cons c r ih =>
    intro y h
    have hc : c ≠ '\n' := fun hh => h (by simp [hh])
    rw [List.cons_append, splitNl, if_neg hc, ih y (fun hm => h (by simp [hm]))]

/-- Decomposition of `joinNl` around one line. -/
def joinPre (A : List (List Char)) : List Char :=
  match A with
  | [] => []
  | _ => joinNl A ++ ['\n']

def joinPost (B : List (List Char)) : List Char :=
  match B with
  | [] => []
  | _ => '\n' :: joinNl B

theorem joinNl_split_at : ∀ (A : List (List Char)) (l : List Char) (B : List (List Char)),
    joinNl (A ++ l :: B) = joinPre A ++ l ++ joinPost B := by
  intro A
  induction A with
  | nil =>
    intro l B
    cases B with
    | nil => simp [joinNl, joinPre, joinPost]
    | cons b bs => simp [joinNl, joinPre, joinPost]
  | cons a A' ih =>
    intro l B
    rw [List.cons_append]
    cases hA : A' ++ l :: B with
    | nil => exact absurd hA (by simp)
    | cons q qs =>
      rw [joinNl, ← hA, ih l B]
      cases A' with
      | nil =>
        simp only [joinPre, joinNl]
        cases B <;> simp [joinPost]
      | cons a' A'' =>
        simp only [joinPre]
        rw [joinNl]
        simp [List.append_assoc]

/-! ## Occurrences of a pattern -/

/-- `pat` occurs in `s` at position `i`. -/
def isOccAt (pat s : List Char) (i : Nat) : Prop := pat.isPrefixOf (s.drop i)

/-- Number of positions at which `pat` occurs in `s`. -/
def occCount (pat : List Char) : List Char → Nat
  | [] => if pat.isPrefixOf ([] : List Char) then 1 else 0
  | c :: t => (if pat.isPrefixOf (c :: t) then 1 else 0) + occCount pat t

theorem isOccAt_zero {pat s : List Char} : isOccAt pat s 0 ↔ pat.isPrefixOf s := by
  simp [isOccAt]

theorem isOccAt_succ {pat : List Char} {c : Char} {t : List Char} {i : Nat} :
    isOccAt pat (c :: t) (i + 1) ↔ isOccAt pat t i := by
  simp [isOccAt]

theorem occCount_pos_of_occ : ∀ (s : List Char) (pat : List Char) (i : Nat),
    isOccAt pat s i → 1 ≤ occCount pat s := by
  intro s
  induction s with
  | nil =>
    intro pat i h
    have hp : pat.isPrefixOf ([] : List Char) := by
      simpa [isOccAt, List.drop_nil] using h
    simp [occCount, hp]
  | cons c t ih =>
    intro pat i h
    cases i with
    | zero =>
      rw [isOccAt_zero] at h
      simp [occCount, h]
    | succ i =>
      rw [isOccAt_succ] at h
      have := ih pat i h
      simp only [occCount]
      omega

theorem occCount_two_of_two : ∀ (s : List Char) (pat : List Char), pat ≠ [] →
    ∀ (i₁ i₂ : Nat), i₁ < i₂ → isOccAt pat s i₁ → isOccAt pat s i₂ →
      2 ≤ occCount pat s := by
  intro s
  induction s with
  | nil =>
    intro pat hp i₁ i₂ hlt h1 h2
    have hpre : pat.isPrefixOf ([] : List Char) := by
      simpa [isOccAt, List.drop_nil] using h1
    rw [List.isPrefixOf_iff_prefix] at hpre
    exact absurd (List.prefix_nil.mp hpre) hp
  | cons c t ih =>
    intro pat hp i₁ i₂ hlt h1 h2
    cases i₁ with
    | zero =>
      rw [isOccAt_zero] at h1
      cases i₂ with
      | zero => omega
      | succ j =>
        rw [isOccAt_succ] at h2
        have hpos := occCount_pos_of_occ t pat j h2
        have hc2 : occCount pat (c :: t) = 1 + occCount pat t := by simp [occCount, h1]
        rw [hc2]
        omega
    | succ j₁ =>
      cases i₂ with
      | zero => omega
      | succ j₂ =>
        rw [isOccAt_succ] at h1 h2
        have := ih pat hp j₁ j₂ (by omega) h1 h2
        simp only [occCount]
        omega

/-- A pattern occurring exactly once has a unique occurrence position. -/
theorem occ_unique {pat s : List Char} (hp : pat ≠ []) (h1 : occCount pat s = 1) :
    ∀ i₁ i₂, isOccAt pat s i₁ → isOccAt pat s i₂ → i₁ = i₂ := by
  intro i₁ i₂ o1 o2
  rcases Nat.lt_trichotomy i₁ i₂ with h | h | h
  · exact absurd h1 (by have := occCount_two_of_two s pat hp i₁ i₂ h o1 o2; omega)
  · exact h
  · exact absurd h1 (by have := occCount_two_of_two s pat hp i₂ i₁ h o2 o1; omega)

theorem occ_le {pat x : List Char} {i : Nat} (hp : pat ≠ []) (h : isOccAt pat x i) :
    i + pat.length ≤ x.length := by
  rw [isOccAt, List.isPrefixOf_iff_prefix] at h
  have h1 : pat.length ≤ (x.drop i).length := h.length_le
  rw [List.length_drop] at h1
  have h2 : 1 ≤ pat.length := by
    cases pat with
    | nil => exact absurd rfl hp
    | cons p ps => simp
  omega

theorem occ_drop_of_occ {pat x : List Char} {m k : Nat} (hm : m ≤ k)
    (h : isOccAt pat x k) : isOccAt pat (x.drop m) (k - m) := by
  rw [isOccAt] at h ⊢
  rw [List.drop_drop]
  rw [show m + (k - m) = k from by omega]
  exact h

theorem occ_of_occ_drop {pat x : List Char} {m i : Nat}
    (h : isOccAt pat (x.drop m) i) : isOccAt pat x (m + i) := by
  rw [isOccAt] at h ⊢
  rw [List.drop_drop] at h
  exact h

/-! ## Characterisation of the index searches -/

theorem firstIdx_some : ∀ (pat s : List Char) (j : Nat), firstIdx pat s = some j →
    isOccAt pat s j ∧ ∀ i, isOccAt pat s i → j ≤ i := by
  intro pat s
  induction s with
  | nil =>
    intro j h
    by_cases hpre : pat.isPrefixOf ([] : List Char)
    · rw [firstIdx, if_pos hpre] at h
      injection h with h
      subst h
      exact ⟨by simpa [isOccAt] using hpre, fun i _ => Nat.zero_le i⟩
    · rw [firstIdx, if_neg hpre] at h
      exact absurd h (by simp)
  | cons c t ih =>
    intro j h
    by_cases hpre : pat.isPrefixOf (c :: t)
    · rw [firstIdx, if_pos hpre] at h
      injection h with h
      subst h
      exact ⟨isOccAt_zero.mpr hpre, fun i _ => Nat.zero_le i⟩
    · rw [firstIdx, if_neg hpre] at h
      cases hft : firstIdx pat t with
      | none => rw [hft] at h; exact absurd h (by simp)
      | some j' =>
        rw [hft] at h
        simp only [Option.map_some'] at h
        injection h with h
        subst h
        obtain ⟨ho, hmin⟩ := ih j' hft
        refine ⟨isOccAt_succ.mpr ho, ?_⟩
        intro i hi
        cases i with
        | zero => exact absurd (isOccAt_zero.mp hi) hpre
        | succ i' => exact Nat.succ_le_succ (hmin i' (isOccAt_succ.mp hi))

theorem firstIdx_none : ∀ (pat s : List Char), firstIdx pat s = none →
    ∀ i, ¬ isOccAt pat s i := by
  intro pat s
  induction s with
  | nil =>
    intro h i hi
    have hpre : pat.isPrefixOf ([] : List Char) := by
      simpa [isOccAt, List.drop_nil] using hi
    rw [firstIdx, if_pos hpre] at h
    exact absurd h (by simp)
  | cons c t ih =>
    intro h i hi
    by_cases hpre : pat.isPrefixOf (c :: t)
    · rw [firstIdx, if_pos hpre] at h; exact absurd h (by simp)
    · rw [firstIdx, if_neg hpre] at h
      cases i with
      | zero => exact hpre (isOccAt_zero.mp hi)
      | succ i' =>
        cases hft : firstIdx pat t with
        | none => exact ih hft i' (isOccAt_succ.mp hi)
        | some j' => rw [hft] at h; exact absurd h (by simp)

theorem lastIdx_none : ∀ (pat : List Char), pat ≠ [] → ∀ (s : List Char),
    lastIdx pat s = none → ∀ i, ¬ isOccAt pat s i := by
  intro pat hp s
  induction s with
  | nil =>
    intro h i hi
    have hpre : pat.isPrefixOf ([] : List Char) := by
      simpa [isOccAt, List.drop_nil] using hi
    rw [List.isPrefixOf_iff_prefix] at hpre
    exact absurd (List.prefix_nil.mp hpre) hp
  | cons c t ih =>
    intro h i hi
    rw [lastIdx] at h
    cases hlt : lastIdx pat t with
    | some k => rw [hlt] at h; exact absurd h (by simp)
    | none =>
      rw [hlt] at h
      cases i with
      | zero =>
        have hpre := isOccAt_zero.mp hi
        rw [if_pos hpre] at h
        exact absurd h (by simp)
      | succ i' => exact ih hlt i' (isOccAt_succ.mp hi)

theorem lastIdx_some : ∀ (pat : List Char), pat ≠ [] → ∀ (s : List Char) (k : Nat),
    lastIdx pat s = some k →
    isOccAt pat s k ∧ ∀ i, k < i → ¬ isOccAt pat s i := by
  intro pat hp s
  induction s with
  | nil =>
    intro k h
    by_cases hpre : pat.isPrefixOf ([] : List Char)
    · rw [List.isPrefixOf_iff_prefix] at hpre
      exact absurd (List.prefix_nil.mp hpre) hp
    · rw [lastIdx, if_neg hpre] at h
      exact absurd h (by simp)
  | cons c t ih =>
    intro k h
    rw [lastIdx] at h
    cases hlt : lastIdx pat t with
    | some k' =>
      rw [hlt] at h
      injection h with h
      subst h
      obtain ⟨ho, hmax⟩ := ih k' hlt
      refine ⟨isOccAt_succ.mpr ho, ?_⟩
      intro i hi hocc
      cases i with
      | zero => omega
      | succ i' => exact hmax i' (by omega) (isOccAt_succ.mp hocc)
    | none =>
      rw [hlt] at h
      by_cases hpre : pat.isPrefixOf (c :: t)
      · rw [if_pos hpre] at h
        injection h with h
        subst h
        refine ⟨isOccAt_zero.mpr hpre, ?_⟩
        intro i hi hocc
        cases i with
        | zero => omega
        | succ i' => exact lastIdx_none pat hp t hlt i' (isOccAt_succ.mp hocc)
      · rw [if_neg hpre] at h
        exact absurd h (by simp)

/-! ## Pairs of catalog tags within a line -/

/-- A line (or line fragment) contains an opening catalog tag followed, at
or after its end, by a closing one: exactly the condition for the
catalog-line pattern to match somewhere in it. -/
def HasPair (x : List Char) : Prop :=
  ∃ j k, isOccAt catOpen x j ∧ isOccAt catClose x k ∧ j + 13 ≤ k

theorem hasPair_of_tail {c : Char} {x : List Char} (h : HasPair x) : HasPair (c :: x) := by
  obtain ⟨j, k, hj, hk, hle⟩ := h
  exact ⟨j + 1, k + 1, isOccAt_succ.mpr hj, isOccAt_succ.mpr hk, by omega⟩

theorem not_hasPair_nil : ¬ HasPair [] := by
  rintro ⟨j, k, hj, -, -⟩
  rw [isOccAt, List.drop_nil] at hj
  exact absurd hj (by decide)

theorem cfgMatchAt_some_struct {s : List Char} {e : Nat} (h : cfgMatchAt s = some e) :
    ∃ j k, firstIdx catOpen (s.takeWhile (fun d => d ≠ '\n')) = some j ∧
      lastIdx catClose ((s.takeWhile (fun d => d ≠ '\n')).drop (j + 13)) = some k ∧
      e = j + 13 + k + 14 := by
  unfold cfgMatchAt at h
  cases h1 : firstIdx catOpen (s.takeWhile (fun d => d ≠ '\n')) with
  | none =>
    simp only [h1] at h
    exact absurd h (by simp)
  | some j =>
    simp only [h1] at h
    cases h2 : lastIdx catClose ((s.takeWhile (fun d => d ≠ '\n')).drop (j + 13)) with
    | none =>
      simp only [h2] at h
      exact absurd h (by simp)
    | some k =>
      simp only [h2, Option.some.injEq] at h
      exact ⟨j, k, rfl, h2, h.symm⟩

theorem cfgMatchAt_pos {s : List Char} {e : Nat} (h : cfgMatchAt s = some e) : 1 ≤ e := by
  obtain ⟨j, k, -, -, he⟩ := cfgMatchAt_some_struct h
  omega

theorem cfgMatchAt_le {s : List Char} {e : Nat} (h : cfgMatchAt s = some e) :
    e ≤ (s.takeWhile (fun d => d ≠ '\n')).length := by
  obtain ⟨j, k, h1, h2, he⟩ := cfgMatchAt_some_struct h
  have hj := (firstIdx_some catOpen _ j h1).1
  have hk := (lastIdx_some catClose (by decide) _ k h2).1
  have hjl := occ_le (by decide : catOpen ≠ []) hj
  have hkl := occ_le (by decide : catClose ≠ []) hk
  rw [List.length_drop] at hkl
  have hco : catOpen.length = 13 := by decide
  have hcc : catClose.length = 14 := by decide
  omega

theorem cfgMatchAt_none_of_not_pair {s : List Char}
    (h : ¬ HasPair (s.takeWhile (fun d => d ≠ '\n'))) : cfgMatchAt s = none := by
  cases hm : cfgMatchAt s with
  | none => rfl
  | some e =>
    exfalso
    obtain ⟨j, k, h1, h2, -⟩ := cfgMatchAt_some_struct hm
    have hj := (firstIdx_some catOpen _ j h1).1
    have hk := (lastIdx_some catClose (by decide) _ k h2).1
    exact h ⟨j, j + 13 + k, hj, occ_of_occ_drop hk, by omega⟩

theorem not_pair_of_cfgMatchAt_none {s : List Char} (h : cfgMatchAt s = none) :
    ¬ HasPair (s.takeWhile (fun d => d ≠ '\n')) := by
  rintro ⟨j, k, hj, hk, hle⟩
  unfold cfgMatchAt at h
  cases h1 : firstIdx catOpen (s.takeWhile (fun d => d ≠ '\n')) with
  | none => exact firstIdx_none catOpen _ h1 j hj
  | some j0 =>
    simp only [h1] at h
    have hj0 := firstIdx_some catOpen _ j0 h1
    have hj0j : j0 ≤ j := hj0.2 j hj
    have hocc : isOccAt catClose ((s.takeWhile (fun d => d ≠ '\n')).drop (j0 + 13))
        (k - (j0 + 13)) := occ_drop_of_occ (by omega) hk
    cases h2 : lastIdx catClose ((s.takeWhile (fun d => d ≠ '\n')).drop (j0 + 13)) with
    | none => exact lastIdx_none catClose (by decide) _ h2 _ hocc
    | some k0 =>
      simp only [h2] at h
      exact absurd h (by simp)

theorem cfgMatchAt_congr {s s' : List Char}
    (h : s.takeWhile (fun d => d ≠ '\n') = s'.takeWhile (fun d => d ≠ '\n')) :
    cfgMatchAt s = cfgMatchAt s' := by
  unfold cfgMatchAt
  rw [h]

theorem takeWhile_no_newline {x : List Char} (h : '\n' ∉ x) :
    x.takeWhile (fun d => d ≠ '\n') = x := by
  induction x with
  | nil => rfl
  | cons c r ih =>
    have hc : c ≠ '\n' := fun hh => h (by simp [hh])
    rw [List.takeWhile_cons, if_pos (by simp [hc]), ih (fun hm => h (by simp [hm]))]

theorem takeWhile_append_newline {x : List Char} (y : List Char) (h : '\n' ∉ x) :
    (x ++ '\n' :: y).takeWhile (fun d => d ≠ '\n') = x := by
  induction x with
  | nil => simp [List.takeWhile_cons]
  | cons c r ih =>
    have hc : c ≠ '\n' := fun hh => h (by simp [hh])
    rw [List.cons_append, List.takeWhile_cons]
    rw [if_pos (by simpa using hc), ih (fun hm => h (by simp [hm]))]

theorem take_append_le : ∀ (n : Nat) (a b : List Char), n ≤ a.length →
    (a ++ b).take n = a.take n := by
  intro n
  induction n with
  | zero => intro a b _; simp
  | succ n ih =>
    intro a b h
    cases a with
    | nil => simp at h
    | cons c a' =>
      rw [List.cons_append, List.take_succ_cons, List.take_succ_cons,
        ih a' b (by simpa using h)]

theorem drop_append_le : ∀ (n : Nat) (a b : List Char), n ≤ a.length →
    (a ++ b).drop n = a.drop n ++ b := by
  intro n
  induction n with
  | zero => intro a b _; simp
  | succ n ih =>
    intro a b h
    cases a with
    | nil => simp at h
    | cons c a' =>
      rw [List.cons_append, List.drop_succ_cons, List.drop_succ_cons,
        ih a' b (by simpa using h)]

/-! ## The catalog-line scanner, line by line -/

theorem cfgScanGo_skip : ∀ (k : Nat) (s : List Char), cfgScanGo k s = cfgScanGo 0 (s.drop k) := by
  intro k
  induction k with
  | zero => intro s; simp
  | succ k ih =>
    intro s
    cases s with
    | nil => simp [cfgScanGo]
    | cons c t => simpa [cfgScanGo] using ih t

theorem cfgScan_cons_some {c : Char} {t : List Char} {e : Nat}
    (h : cfgMatchAt (c :: t) = some e) :
    cfgScan (c :: t) = (c :: t).take e :: cfgScan ((c :: t).drop e) := by
  have he := cfgMatchAt_pos h
  have hdrop : (c :: t).drop e = t.drop (e - 1) := by
    conv_lhs => rw [show e = (e - 1) + 1 from by omega]
    exact List.drop_succ_cons
  have h0 : cfgScanGo 0 (c :: t) = (c :: t).take e :: cfgScanGo (e - 1) t := by
    rw [show cfgScanGo 0 (c :: t) =
        (match cfgMatchAt (c :: t) with
         | some e => (c :: t).take e :: cfgScanGo (e - 1) t
         | none => cfgScanGo 0 t) from rfl, h]
  show cfgScanGo 0 (c :: t) = _
  rw [h0, cfgScanGo_skip (e - 1) t, hdrop]
  rfl

theorem cfgScan_cons_none {c : Char} {t : List Char} (h : cfgMatchAt (c :: t) = none) :
    cfgScan (c :: t) = cfgScan t := by
  have h0 : cfgScanGo 0 (c :: t) =
      match cfgMatchAt (c :: t) with
      | some e => (c :: t).take e :: cfgScanGo (e - 1) t
      | none => cfgScanGo 0 t := rfl
  rw [h] at h0
  exact h0

theorem cfgScan_line_no_pair : ∀ (x y : List Char), '\n' ∉ x → ¬ HasPair x →
    cfgScan (x ++ '\n' :: y) = cfgScan y := by
  intro x
  induction x with
  | nil =>
    intro y _ _
    have hm : cfgMatchAt ('\n' :: y) = none := by
      apply cfgMatchAt_none_of_not_pair
      rw [show ('\n' :: y).takeWhile (fun d => d ≠ '\n') = [] from by simp]
      exact not_hasPair_nil
    rw [List.nil_append, cfgScan_cons_none hm]
  | cons c x' ih =>
    intro y hnl hnp
    have hm : cfgMatchAt (c :: (x' ++ '\n' :: y)) = none := by
      apply cfgMatchAt_none_of_not_pair
      rw [← List.cons_append, takeWhile_append_newline y hnl]
      exact hnp
    rw [List.cons_append, cfgScan_cons_none hm]
    exact ih y (fun hh => hnl (by simp [hh])) (fun hp => hnp (hasPair_of_tail hp))

theorem cfgScan_no_pair_nil : ∀ x : List Char, '\n' ∉ x → ¬ HasPair x → cfgScan x = [] := by
  intro x
  induction x with
  | nil => intro _ _; rfl
  | cons c x' ih =>
    intro hnl hnp
    have hm : cfgMatchAt (c :: x') = none := by
      apply cfgMatchAt_none_of_not_pair
      rw [takeWhile_no_newline hnl]
      exact hnp
    rw [cfgScan_cons_none hm]
    exact ih (fun hh => hnl (by simp [hh])) (fun hp => hnp (hasPair_of_tail hp))

theorem trail_no_close {l : List Char} {e : Nat} (hnl : '\n' ∉ l)
    (h : cfgMatchAt l = some e) : ∀ i, ¬ isOccAt catClose (l.drop e) i := by
  obtain ⟨j, k, h1, h2, he⟩ := cfgMatchAt_some_struct h
  rw [takeWhile_no_newline hnl] at h1 h2
  intro i hocc
  have hoccL : isOccAt catClose l (e + i) := occ_of_occ_drop hocc
  have hsh : isOccAt catClose (l.drop (j + 13)) (k + 14 + i) := by
    have hd := occ_drop_of_occ (show j + 13 ≤ e + i from by omega) hoccL
    rw [show e + i - (j + 13) = k + 14 + i from by omega] at hd
    exact hd
  exact (lastIdx_some catClose (by decide) _ k h2).2 (k + 14 + i) (by omega) hsh

theorem trail_no_pair {l : List Char} {e : Nat} (hnl : '\n' ∉ l)
    (h : cfgMatchAt l = some e) : ¬ HasPair (l.drop e) := by
  rintro ⟨j', k', -, hk', -⟩
  exact trail_no_close hnl h k' hk'

/-- The match attempted at a line, as the matched string. -/
def lineMatch (l : List Char) : Option (List Char) :=
  (cfgMatchAt l).map (fun e => l.take e)

/-- All matches of a list of lines in order. -/
def linesMatches : List (List Char) → List (List Char)
  | [] => []
  | l :: ls => (lineMatch l).toList ++ linesMatches ls

/-- When some element of `s` fails `p`, `dropWhile` stops at such an
element. -/
theorem dropWhile_head_newline : ∀ (s : List Char) (d : Char) (y : List Char),
    s.dropWhile (fun c => c ≠ '\n') = d :: y → d = '\n' := by
  intro s
  induction s with
  | nil => intro d y h; simp [List.dropWhile] at h
  | cons c t ih =>
    intro d y h
    by_cases hc : c = '\n'
    · rw [List.dropWhile_cons] at h
      rw [if_neg (by simpa using hc)] at h
      injection h with h1 h2
      rw [← h1, hc]
    · rw [List.dropWhile_cons, if_pos (by simpa using hc)] at h
      exact ih d y h

/-- `re.findall` for the catalog-line pattern decomposes over the lines of
the file: each line contributes its own match attempt. -/
theorem cfgScan_eq_linesMatches : ∀ s : List Char, cfgScan s = linesMatches (splitNl s) := by
  suffices H : ∀ (n : Nat) (s : List Char), s.length = n →
      cfgScan s = linesMatches (splitNl s) by
    intro s; exact H s.length s rfl
  intro n
  induction n using Nat.strong_induction_on with
  | _ n ih =>
  intro s hn
  by_cases hnl : '\n' ∈ s
  · -- s = x ++ '\n' :: y
    have hx : '\n' ∉ s.takeWhile (fun d => d ≠ '\n') := by
      intro hm
      have := List.mem_takeWhile_imp hm
      simp at this
    obtain ⟨d, y, hdy⟩ : ∃ d y, s.dropWhile (fun c => c ≠ '\n') = d :: y := by
      cases hdw : s.dropWhile (fun c => c ≠ '\n') with
      | nil =>
        exfalso
        rw [List.dropWhile_eq_nil_iff] at hdw
        have := hdw '\n' hnl
        simp at this
      | cons d y => exact ⟨d, y, rfl⟩
    have hd : d = '\n' := dropWhile_head_newline s d y hdy
    subst hd
    have hs : s = s.takeWhile (fun d => d ≠ '\n') ++ '\n' :: y := by
      conv_lhs => rw [← List.takeWhile_append_dropWhile (p := fun c => c ≠ '\n') (l := s)]
      rw [hdy]
    set x := s.takeWhile (fun d => d ≠ '\n') with hxdef
    have hylen : y.length < s.length := by
      have := congrArg List.length hs
      simp only [List.length_append, List.length_cons] at this
      omega
    have hsplit : splitNl s = x :: splitNl y := by
      conv_lhs => rw [hs]
      exact splitNl_append_newline x y hx
    have hIHy : cfgScan y = linesMatches (splitNl y) :=
      ih y.length (hn ▸ hylen) y rfl
    have htwx : x.takeWhile (fun d => d ≠ '\n') = x := takeWhile_no_newline hx
    have hcongr : cfgMatchAt s = cfgMatchAt x := by
      apply cfgMatchAt_congr
      rw [htwx, ← hxdef]
    clear_value x
    cases hm : cfgMatchAt x with
    | none =>
      have hnp : ¬ HasPair x := by
        have h2 := not_pair_of_cfgMatchAt_none hm
        rwa [htwx] at h2
      have hscan : cfgScan s = cfgScan y := by
        conv_lhs => rw [hs]
        exact cfgScan_line_no_pair x y hx hnp
      rw [hscan, hIHy, hsplit, linesMatches, lineMatch, hm]
      simp
    | some e =>
      have hel := cfgMatchAt_le (s := x) hm
      rw [htwx] at hel
      have hepos := cfgMatchAt_pos (s := x) hm
      obtain ⟨c, x', hx'⟩ : ∃ c x', x = c :: x' := by
        cases x with
        | nil =>
          exfalso
          rw [List.length_nil] at hel
          omega
        | cons c x' => exact ⟨c, x', rfl⟩
      have hms : cfgMatchAt s = some e := by rw [hcongr, hm]
      have hscons : s = c :: (x' ++ '\n' :: y) := by rw [hs, hx', List.cons_append]
      have hstep : cfgScan s = s.take e :: cfgScan (s.drop e) := by
        rw [hscons] at hms ⊢
        exact cfgScan_cons_some hms
      have htake : s.take e = x.take e := by
        conv_lhs => rw [hs]
        exact take_append_le e x ('\n' :: y) hel
      have hdrop : s.drop e = x.drop e ++ '\n' :: y := by
        conv_lhs => rw [hs]
        exact drop_append_le e x ('\n' :: y) hel
      have htrail : cfgScan (s.drop e) = cfgScan y := by
        rw [hdrop]
        exact cfgScan_line_no_pair (x.drop e) y
          (fun hm' => hx (List.drop_subset e x hm'))
          (trail_no_pair hx hm)
      rw [hstep, htake, htrail, hIHy, hsplit, linesMatches, lineMatch, hm]
      simp
  · -- a single line
    have hsplit : splitNl s = [s] := splitNl_no_newline_id s hnl
    have htwx : s.takeWhile (fun d => d ≠ '\n') = s := takeWhile_no_newline hnl
    cases hm : cfgMatchAt s with
    | none =>
      have hnp : ¬ HasPair s := by
        have := not_pair_of_cfgMatchAt_none hm
        rwa [htwx] at this
      rw [cfgScan_no_pair_nil s hnl hnp, hsplit, linesMatches, lineMatch, hm]
      simp [linesMatches]
    | some e =>
      have hel := cfgMatchAt_le hm
      rw [htwx] at hel
      obtain ⟨c, t, hct⟩ : ∃ c t, s = c :: t := by
        cases s with
        | nil =>
          exfalso
          have := cfgMatchAt_pos hm
          simp at hel
          omega
        | cons c t => exact ⟨c, t, rfl⟩
      have hstep : cfgScan s = s.take e :: cfgScan (s.drop e) := by
        rw [hct] at hm ⊢
        exact cfgScan_cons_some hm
      have htrail : cfgScan (s.drop e) = [] :=
        cfgScan_no_pair_nil (s.drop e) (fun hm' => hnl (List.drop_subset e s hm'))
          (trail_no_pair hnl hm)
      rw [hstep, htrail, hsplit, linesMatches, lineMatch, hm]
      simp [linesMatches]

/-! ## Replacement at a unique occurrence -/

theorem occ_append_right {pat y : List Char} (x : List Char) {i : Nat}
    (h : isOccAt pat y i) : isOccAt pat (x ++ y) (x.length + i) := by
  rw [isOccAt] at h ⊢
  have hd : (x ++ y).drop (x.length + i) = y.drop i := by
    have h1 : ((x ++ y).drop x.length).drop i = (x ++ y).drop (x.length + i) :=
      List.drop_drop i x.length (x ++ y)
    rw [← h1, List.drop_left]
  rw [hd]
  exact h

theorem occ_append_left {pat x : List Char} (y : List Char) {i : Nat} (hp : pat ≠ [])
    (h : isOccAt pat x i) : isOccAt pat (x ++ y) i := by
  have hle : i ≤ x.length := by
    have := occ_le hp h
    omega
  rw [isOccAt] at h ⊢
  rw [drop_append_le i x y hle]
  rw [List.isPrefixOf_iff_prefix] at h ⊢
  obtain ⟨r, hr⟩ := h
  exact ⟨r ++ y, by rw [← List.append_assoc, hr]⟩

theorem occ_append_shift {pat x y : List Char} {i : Nat}
    (h : isOccAt pat (x ++ y) (x.length + i)) : isOccAt pat y i := by
  rw [isOccAt] at h ⊢
  have hd : (x ++ y).drop (x.length + i) = y.drop i := by
    have h1 : ((x ++ y).drop x.length).drop i = (x ++ y).drop (x.length + i) :=
      List.drop_drop i x.length (x ++ y)
    rw [← h1, List.drop_left]
  rwa [hd] at h

/-- Replacement is the identity on occurrence-free text. -/
theorem pyReplace_no_occ (pat rep : List Char) :
    ∀ s : List Char, (∀ i, ¬ isOccAt pat s i) → pyReplace pat rep s = s := by
  intro s
  induction s with
  | nil => intro _; rfl
  | cons c t ih =>
    intro h
    have h0 : ¬ pat.isPrefixOf (c :: t) := fun hp => h 0 (isOccAt_zero.mpr hp)
    rw [pyReplace_cons_neg _ _ _ _ h0, ih (fun i hi => h (i + 1) (isOccAt_succ.mpr hi))]

/-- When the pattern occurs exactly at one place, `str.replace` rewrites
precisely there. -/
theorem pyReplace_unique_occ (pat rep : List Char) (hp : pat ≠ []) (b : List Char)
    (hb : ∀ i, ¬ isOccAt pat b i) :
    ∀ a : List Char, (∀ i, isOccAt pat (a ++ pat ++ b) i → i = a.length) →
      pyReplace pat rep (a ++ pat ++ b) = a ++ rep ++ b := by
  intro a
  induction a with
  | nil =>
    intro _
    cases pat with
    | nil => exact absurd rfl hp
    | cons p ps =>
      rw [List.nil_append, List.nil_append]
      have hpre : (p :: ps).isPrefixOf ((p :: ps) ++ b) := by
        rw [List.isPrefixOf_iff_prefix]
        exact List.prefix_append _ _
      rw [List.cons_append] at hpre ⊢
      rw [pyReplace_cons_pos _ _ _ _ (by simp) hpre, ← List.cons_append, List.drop_left,
        pyReplace_no_occ _ _ b hb]
  | cons c a' ih =>
    intro huni
    have hform : ((c :: a') ++ pat) ++ b = c :: ((a' ++ pat) ++ b) := by
      simp [List.cons_append]
    rw [hform]
    have h0 : ¬ pat.isPrefixOf (c :: ((a' ++ pat) ++ b)) := by
      intro hpre
      have h00 := huni 0 (by
        rw [isOccAt_zero, hform]
        exact hpre)
      simp at h00
    rw [pyReplace_cons_neg _ _ _ _ h0]
    have huni2 : ∀ i, isOccAt pat ((a' ++ pat) ++ b) i → i = a'.length := by
      intro i hi
      have h2 := huni (i + 1) (by
        rw [hform]
        exact isOccAt_succ.mpr hi)
      simp only [List.length_cons] at h2
      omega
    rw [ih huni2]
    simp [List.cons_append]

/-! ## Lines and matches bookkeeping -/

theorem linesMatches_append : ∀ (A B : List (List Char)),
    linesMatches (A ++ B) = linesMatches A ++ linesMatches B := by
  intro A
  induction A with
  | nil => intro B; rfl
  | cons l A' ih => intro B; rw [List.cons_append, linesMatches, linesMatches, ih,
      List.append_assoc]

theorem linesMatches_mem_split {m : List Char} : ∀ ls : List (List Char),
    m ∈ linesMatches ls → ∃ A L0 B, ls = A ++ L0 :: B ∧ lineMatch L0 = some m := by
  intro ls
  induction ls with
  | nil => intro h; simp [linesMatches] at h
  | cons l ls' ih =>
    intro h
    rw [linesMatches, List.mem_append] at h
    rcases h with h | h
    · refine ⟨[], l, ls', by simp, ?_⟩
      cases hlm : lineMatch l with
      | none => rw [hlm] at h; simp [Option.toList] at h
      | some m' =>
        rw [hlm] at h
        simp only [Option.toList] at h
        rw [List.mem_singleton] at h
        rw [h]
    · obtain ⟨A, L0, B, hA, hB⟩ := ih h
      exact ⟨l :: A, L0, B, by rw [hA, List.cons_append], hB⟩

theorem getLastD_mem : ∀ (l : List (List Char)) (d : List Char), l ≠ [] → l.getLastD d ∈ l := by
  intro l
  induction l with
  | nil => intro d h; exact absurd rfl h
  | cons x l' ih =>
    intro d _
    cases l' with
    | nil => simp [List.getLastD]
    | cons y l'' =>
      rw [List.getLastD_cons]
      exact List.mem_cons_of_mem x (ih x (by simp))

/-! ## Occurrences inside a prefix of the text -/

theorem prefix_take {pat l : List Char} {m : Nat} (h : pat.isPrefixOf l)
    (hm : pat.length ≤ m) : pat.isPrefixOf (l.take m) := by
  rw [ List.isPrefixOf_iff_prefix] at h ⊢
  obtain ⟨r, hr⟩ := h
  refine ⟨r.take (m - pat.length), ?_⟩
  rw [← hr, List.take_append_eq_append_take, List.take_of_length_le hm]

theorem occ_take {pat x : List Char} {i n : Nat} (h : isOccAt pat x i)
    (hn : i + pat.length ≤ n) : isOccAt pat (x.take n) i := by
  rw [isOccAt] at h ⊢
  rw [List.drop_take]
  exact prefix_take h (by omega)

/-! ## Rebuilding a file from newline-free lines -/

theorem splitNl_joinNl : ∀ L : List (List Char), L ≠ [] → (∀ l ∈ L, '\n' ∉ l) →
    splitNl (joinNl L) = L := by
  intro L
  induction L with
  | nil => intro h _; exact absurd rfl h
  | cons l L2 ih =>
    intro _ hnl
    cases L2 with
    | nil =>
      rw [joinNl]
      exact splitNl_no_newline_id l (hnl l (by simp))
    | cons l2 L3 =>
      rw [joinNl, splitNl_append_newline _ _ (hnl l (by simp)),
        ih (by simp) (fun x hx => hnl x (List.mem_cons_of_mem l hx))]

theorem joinPost_cons (l : List Char) (B : List (List Char)) :
    joinPost (l :: B) = '\n' :: (l ++ joinPost B) := by
  cases B with
  | nil => simp [joinPost, joinNl]
  | cons b bs => simp [joinPost, joinNl]

/-! ## Lines on which the catalog pattern matches -/

theorem cfgMatchAt_isSome_of_pair {x : List Char} (hnl : '\n' ∉ x) (hp : HasPair x) :
    ∃ e, cfgMatchAt x = some e := by
  cases hm : cfgMatchAt x with
  | some e => exact ⟨e, rfl⟩
  | none =>
    exfalso
    have h2 := not_pair_of_cfgMatchAt_none hm
    rw [takeWhile_no_newline hnl] at h2
    exact h2 hp

theorem hasPair_take_match {l : List Char} {e : Nat} (hnl : '\n' ∉ l)
    (h : cfgMatchAt l = some e) : HasPair (l.take e) := by
  obtain ⟨j, k, h1, h2, he⟩ := cfgMatchAt_some_struct h
  rw [takeWhile_no_newline hnl] at h1 h2
  have hj := (firstIdx_some catOpen _ j h1).1
  have hk := (lastIdx_some catClose (by decide) _ k h2).1
  have hkL : isOccAt catClose l (j + 13 + k) := occ_of_occ_drop hk
  refine ⟨j, j + 13 + k,
    occ_take hj (by rw [show catOpen.length = 13 from by decide]; omega),
    occ_take hkL (by rw [show catClose.length = 14 from by decide]; omega),
    by omega⟩

instance isOccAt.decidable (pat s : List Char) (i : Nat) : Decidable (isOccAt pat s i) :=
  inferInstanceAs (Decidable (pat.isPrefixOf (s.drop i) = true))

/-- The inserted reference line itself matches the catalog-line pattern,
whatever trails it on its line. -/
theorem hasPair_new_line_append (trail : List Char) :
    HasPair (new_line CLONE_NAME ++ trail) := by
  refine ⟨3, 32, occ_append_left trail (by decide) (by decide),
    occ_append_left trail (by decide) (by decide), by omega⟩

/-- The number of matches of the catalog-reference pattern in the file; the
pattern cannot cross a newline and each line yields at most one match, so
this is the number of matching lines. -/
def catalogLineCount (content : List Char) : Nat := (cfgScan content).length

/-! ## Claim C4 -/

/-- A `Configuration.xml` whose two catalog-reference lines carry the same
text. -/
def config4 : List Char :=
  ("\t\t\t<cfg:Catalog>Catalog.Двойник</cfg:Catalog>\n"
    ++ "\t\t\t<cfg:Catalog>Catalog.Двойник</cfg:Catalog>\n").data

/-- C4 counterexample: a file with two identical catalog-reference lines
has two matches, yet after the integrate step it has four matching lines
instead of three — `content.replace(last_line, ...)` (line 74) rewrites
every occurrence of the last match's text, so the insertion is duplicated
at each copy of the line. -/
theorem C4_counterexample :
    catalogLineCount config4 = 2 ∧
    catalogLineCount (integrate_config_content CLONE_NAME config4) = 4 := by
  exact ⟨by decide, by decide⟩

/-- C4 (amended): when the text of the last catalog-reference match occurs
exactly once in `Configuration.xml`, the integrate step splices the new
reference line immediately after that match and the number of matching
lines grows by exactly one. -/
theorem C4_amended_insert_after_last (content : List Char)
    (hms : cfgScan content ≠ [])
    (huniq : occCount ((cfgScan content).getLastD []) content = 1) :
    ∃ a b : List Char,
      content = a ++ (cfgScan content).getLastD [] ++ b ∧
      integrate_config_content CLONE_NAME content
        = a ++ (cfgScan content).getLastD [] ++ '\n' :: (new_line CLONE_NAME ++ b) ∧
      catalogLineCount (integrate_config_content CLONE_NAME content)
        = catalogLineCount content + 1 := by
  set last := (cfgScan content).getLastD [] with hlastdef
  have hmem0 : last ∈ cfgScan content := getLastD_mem _ [] hms
  rw [cfgScan_eq_linesMatches] at hmem0
  obtain ⟨A, L0, B, hAB, hLM⟩ := linesMatches_mem_split (splitNl content) hmem0
  obtain ⟨e, he, hlast_take⟩ : ∃ e, cfgMatchAt L0 = some e ∧ last = L0.take e := by
    unfold lineMatch at hLM
    cases hm : cfgMatchAt L0 with
    | none => rw [hm] at hLM; exact absurd hLM (by simp)
    | some e0 =>
      rw [hm] at hLM
      simp only [Option.map_some', Option.some.injEq] at hLM
      exact ⟨e0, rfl, hLM.symm⟩
  have hL0mem : L0 ∈ splitNl content := by
    rw [hAB]; exact List.mem_append_right A (List.mem_cons_self L0 B)
  have hL0nl : '\n' ∉ L0 := splitNl_no_newline content L0 hL0mem
  have hAnl : ∀ l ∈ A, '\n' ∉ l := fun l hl =>
    splitNl_no_newline content l (by rw [hAB]; exact List.mem_append_left _ hl)
  have hBnl : ∀ l ∈ B, '\n' ∉ l := fun l hl =>
    splitNl_no_newline content l
      (by rw [hAB]; exact List.mem_append_right _ (List.mem_cons_of_mem L0 hl))
  have hcontent : content = joinPre A ++ L0 ++ joinPost B := by
    conv_lhs => rw [← joinNl_splitNl content, hAB]
    exact joinNl_split_at A L0 B
  have hel : e ≤ L0.length := by
    have h0 := cfgMatchAt_le he
    rwa [takeWhile_no_newline hL0nl] at h0
  have hepos : 1 ≤ e := cfgMatchAt_pos he
  have hlast_len : last.length = e := by
    rw [hlast_take, List.length_take]
    omega
  have hlast_ne : last ≠ [] := by
    intro hnil
    rw [hnil] at hlast_len
    simp at hlast_len
    omega
  have hL0split : L0 = last ++ L0.drop e := by
    rw [hlast_take]
    exact (List.take_append_drop e L0).symm
  have hdecomp : content = (joinPre A ++ last) ++ (L0.drop e ++ joinPost B) := by
    rw [hcontent]
    conv_lhs => rw [hL0split]
    simp [List.append_assoc]
  have hocc_a : isOccAt last content (joinPre A).length := by
    rw [hdecomp, List.append_assoc]
    have h0 : isOccAt last (last ++ (L0.drop e ++ joinPost B)) 0 :=
      isOccAt_zero.mpr (by
        rw [ List.isPrefixOf_iff_prefix]
        exact List.prefix_append _ _)
    have h1 := occ_append_right (joinPre A) h0
    simpa using h1
  have huni : ∀ i, isOccAt last content i → i = (joinPre A).length :=
    fun i hi => occ_unique hlast_ne huniq i (joinPre A).length hi hocc_a
  have hbfree : ∀ i, ¬ isOccAt last (L0.drop e ++ joinPost B) i := by
    intro i hi
    have h2 := occ_append_right (joinPre A ++ last) hi
    rw [← hdecomp] at h2
    have h3 := huni _ h2
    rw [List.length_append] at h3
    omega
  have huni2 : ∀ i, isOccAt last ((joinPre A ++ last) ++ (L0.drop e ++ joinPost B)) i →
      i = (joinPre A).length := by
    intro i hi
    rw [← hdecomp] at hi
    exact huni i hi
  obtain ⟨m, ms2, hscan⟩ : ∃ m ms2, cfgScan content = m :: ms2 := by
    cases h : cfgScan content with
    | nil => exact absurd h hms
    | cons m ms2 => exact ⟨m, ms2, rfl⟩
  have hout : integrate_config_content CLONE_NAME content
      = pyReplace last (last ++ '\n' :: new_line CLONE_NAME) content := by
    have hfold : (m :: ms2).getLastD [] = last := by rw [hlastdef, hscan]
    simp only [integrate_config_content, hscan, hfold]
  have hrepl := pyReplace_unique_occ last (last ++ '\n' :: new_line CLONE_NAME) hlast_ne
      (L0.drop e ++ joinPost B) hbfree (joinPre A) huni2
  have houtfull : integrate_config_content CLONE_NAME content
      = joinPre A ++ last ++ '\n' :: (new_line CLONE_NAME ++ (L0.drop e ++ joinPost B)) := by
    rw [hout, hdecomp, hrepl]
    simp [List.append_assoc]
  have hnlast : '\n' ∉ last := by
    rw [hlast_take]
    exact fun hm => hL0nl (List.take_subset e L0 hm)
  have htrail_nl : '\n' ∉ L0.drop e := fun hm => hL0nl (List.drop_subset e L0 hm)
  have hnewl_nl : '\n' ∉ new_line CLONE_NAME ++ L0.drop e := by
    intro hm
    rcases List.mem_append.mp hm with h | h
    · exact absurd h (by decide)
    · exact htrail_nl h
  have hjoin : joinNl (A ++ last :: (new_line CLONE_NAME ++ L0.drop e) :: B)
      = joinPre A ++ last ++ '\n' :: (new_line CLONE_NAME ++ (L0.drop e ++ joinPost B)) := by
    rw [joinNl_split_at, joinPost_cons]
    simp [List.append_assoc]
  have hlines_out : splitNl (integrate_config_content CLONE_NAME content)
      = A ++ last :: (new_line CLONE_NAME ++ L0.drop e) :: B := by
    rw [houtfull, ← hjoin]
    refine splitNl_joinNl _ (by simp) ?_
    intro l hl
    rcases List.mem_append.mp hl with h | h
    · exact hAnl l h
    · rcases List.mem_cons.mp h with h | h
      · rw [h]; exact hnlast
      · rcases List.mem_cons.mp h with h2 | h2
        · rw [h2]; exact hnewl_nl
        · exact hBnl l h2
  have hpl : HasPair last := by
    rw [hlast_take]
    exact hasPair_take_match hL0nl he
  obtain ⟨e1, he1⟩ := cfgMatchAt_isSome_of_pair hnlast hpl
  obtain ⟨e2, he2⟩ := cfgMatchAt_isSome_of_pair hnewl_nl (hasPair_new_line_append (L0.drop e))
  have hcin : catalogLineCount content
      = (linesMatches A).length + (1 + (linesMatches B).length) := by
    unfold catalogLineCount
    rw [cfgScan_eq_linesMatches, hAB, linesMatches_append]
    simp only [linesMatches, hLM, Option.toList_some, List.length_append, List.length_cons,
      List.length_nil]
  have hcout : catalogLineCount (integrate_config_content CLONE_NAME content)
      = (linesMatches A).length + (1 + (1 + (linesMatches B).length)) := by
    unfold catalogLineCount
    rw [cfgScan_eq_linesMatches, hlines_out, linesMatches_append]
    simp only [linesMatches, lineMatch, he1, he2, Option.map_some', Option.toList_some,
      List.length_append, List.length_cons, List.length_nil]
  refine ⟨joinPre A, L0.drop e ++ joinPost B, hdecomp, houtfull, ?_⟩
  rw [hcout, hcin]
  omega

theorem C4_amended_insert_after_last_witness :
    (cfgScan config0 ≠ [] ∧ occCount ((cfgScan config0).getLastD []) config0 = 1) ∧
    (∃ a b : List Char,
      config0 = a ++ (cfgScan config0).getLastD [] ++ b ∧
      integrate_config_content CLONE_NAME config0
        = a ++ (cfgScan config0).getLastD [] ++ '\n' :: (new_line CLONE_NAME ++ b) ∧
      catalogLineCount (integrate_config_content CLONE_NAME config0)
        = catalogLineCount config0 + 1) :=
  ⟨⟨by decide, by decide⟩, C4_amended_insert_after_last config0 (by decide) (by decide)⟩

end CloneCatalog
